import Mathlib

/-!
Verification development for the voice-assistant backend.

Strings from the Python source are embedded as `List Char` (`Str`), so that
every operation (slicing, stripping, splitting on newlines, regex-like
matching) is an executable Lean function that mirrors the corresponding
Python expression.  Only ASCII inputs are relevant to the claims, so the
whitespace/word-character predicates model the ASCII fragment of Python's
`str.strip` / `re` semantics.
-/

namespace VoiceAssistant

abbrev Str := List Char

/-- ASCII fragment of Python's whitespace (`str.strip`, `\s`). -/
def isSpacePy (c : Char) : Bool :=
  c = ' ' || c = '\t' || c = '\n' || c = '\r' || c = '\x0b' || c = '\x0c'

/-- Python `str.lstrip()`. -/
def pyLstrip (s : Str) : Str := s.dropWhile isSpacePy

/-- Python `str.rstrip()`. -/
def pyRstrip (s : Str) : Str := (s.reverse.dropWhile isSpacePy).reverse

/-- Python `str.strip()`. -/
def pyStrip (s : Str) : Str := pyLstrip (pyRstrip s)

/-- Python `s.endswith(cs)` for a tuple `cs` of single-character suffixes. -/
def endsWithAny (s : Str) (cs : List Char) : Bool :=
  match s.getLast? with
  | some c => cs.contains c
  | none => false

/-- `"\n".join`, over `List Char` strings. -/
def joinNl : List Str → Str
  | [] => []
  | [l] => l
  | l :: ls => l ++ '\n' :: joinNl ls

/-- Splits a buffer at newline characters, mirroring
`lines = buffer.split("\n"); complete_lines = lines[:-1]; tail = lines[-1]`:
the first component is `complete_lines`, the second is `tail`. -/
def splitNlR : Str → List Str × Str
  | [] => ([], [])
  | c :: cs =>
      let r := splitNlR cs
      if c = '\n' then ([] :: r.1, r.2)
      else
        match r.1 with
        | [] => ([], c :: r.2)
        | l :: ls => ((c :: l) :: ls, r.2)

/-- Digit characters as used by the regex class `\d` (ASCII: `0`-`9`). -/
def isDigitChar (c : Char) : Bool :=
  c = '0' || c = '1' || c = '2' || c = '3' || c = '4'
    || c = '5' || c = '6' || c = '7' || c = '8' || c = '9'

/-- Decimal digits of `n`, most significant first, prepended to `acc`; the
fuel argument only bounds the recursion (any fuel at least the digit count
minus one gives the decimal representation, and the wrapper passes `n`). -/
def natToCharsCore : Nat → Nat → List Char → List Char
  | 0, n, acc => Char.ofNat (48 + n % 10) :: acc
  | fuel + 1, n, acc =>
      if n < 10 then Char.ofNat (48 + n % 10) :: acc
      else natToCharsCore fuel (n / 10) (Char.ofNat (48 + n % 10) :: acc)

/-- The decimal representation of a number, as produced by `f"{n}"`. -/
def natToChars (n : Nat) : List Char := natToCharsCore n n []

/-- `_LIST_ITEM_RE.match(raw)`, the regex
`^\s*(?:[-*•]|\d+[.)])\s+(.*)\s*$` from `flask_server.py`: returns the text
captured by `(.*)` (greedy, so trailing `\s*` is empty) when the line is a
bullet / numbered list item. -/
def parseListItem (raw : Str) : Option Str :=
  match raw.dropWhile isSpacePy with
  | [] => none
  | c :: rest =>
      if c = '-' || c = '*' || c = '•' then
        match rest with
        | [] => none
        | c2 :: _ => if isSpacePy c2 then some (rest.dropWhile isSpacePy) else none
      else if isDigitChar c then
        match (c :: rest).dropWhile isDigitChar with
        | [] => none
        | p :: rest2 =>
            if p = '.' || p = ')' then
              match rest2 with
              | [] => none
              | c3 :: _ => if isSpacePy c3 then some (rest2.dropWhile isSpacePy) else none
            else none
      else none

/-- The mutable locals of `_extract_speak_segments`: emitted segments,
`current_text_lines`, `current_list_items`, `in_list`. -/
structure SegSt where
  segs : List Str
  text : List Str
  items : List Str
  inList : Bool
  deriving Repr, DecidableEq

/-- `flush_text(force)` from `_extract_speak_segments`. -/
def flushText (force : Bool) (st : SegSt) : SegSt :=
  if st.text = [] then st
  else
    let joined := pyStrip (joinNl st.text)
    if joined = [] then { st with text := [] }
    else if force || 160 ≤ joined.length || endsWithAny joined ['.', '!', '?', ':'] then
      { st with segs := st.segs ++ [joined], text := [] }
    else st

/-- `flush_list(force)` from `_extract_speak_segments`. -/
def flushList (force : Bool) (st : SegSt) : SegSt :=
  if st.items = [] then { st with inList := false }
  else if force || 2 ≤ st.items.length then
    { st with
      segs := st.segs ++ [pyStrip (joinNl (st.items.map (fun it => '-' :: ' ' :: it)))],
      items := [], inList := false }
  else st

/-- The body of `for ln in complete_lines` in `_extract_speak_segments`. -/
def processLine (st : SegSt) (ln : Str) : SegSt :=
  let raw := pyRstrip ln
  if pyStrip raw = [] then flushText true (flushList true st)
  else
    match parseListItem raw with
    | some item =>
        let st1 := flushText true st
        { st1 with inList := true, items := st1.items ++ [pyStrip item] }
    | none =>
        let st1 := if st.inList then flushList true st else st
        let st2 := { st1 with text := st1.text ++ [raw] }
        if endsWithAny (pyStrip raw) ['.', '!', '?'] then flushText false st2 else st2

/-- The f-string list `[f"{i+1}. {it}" for i, it in enumerate(items)]` used to
rebuild a pending list block into the remainder. -/
def renumber (items : List Str) : List Str :=
  (items.enum).map (fun p => natToChars (p.1 + 1) ++ '.' :: ' ' :: p.2)

/-- `_extract_speak_segments(buffer)` from `scripts/flask_server.py`:
returns the speakable segments and the new remainder buffer. -/
def extractSpeakSegments (buffer : Str) : List Str × Str :=
  if buffer = [] then ([], [])
  else
    let lines := splitNlR buffer
    if lines.1 = [] then ([], buffer)
    else
      let st := lines.1.foldl processLine ⟨[], [], [], false⟩
      let pendingParts : List Str :=
        (if st.inList ∧ st.items ≠ [] then [joinNl (renumber st.items)] else [])
          ++ (if st.text ≠ [] then [joinNl st.text] else [])
          ++ [lines.2]
      (st.segs, joinNl pendingParts)

/-- `_has_list_start`-free streaming pipeline state: feeding one delta means
appending it to the speech buffer, running `_extract_speak_segments`, and
keeping the returned remainder as the new buffer (the `text_delta` branch of
`chat_stream_endpoint`). -/
def feedChunks (buffer : Str) : List Str → List Str × Str
  | [] => ([], buffer)
  | c :: cs =>
      let r := extractSpeakSegments (buffer ++ c)
      let rest := feedChunks r.2 cs
      (r.1 ++ rest.1, rest.2)

/-- End-of-turn flush from the `done` branch of `chat_stream_endpoint`: if the
buffer still holds non-whitespace, run the segmenter on `buffer + "\n"` and
additionally speak the stripped remainder when non-empty. -/
def endFlush (buffer : Str) : List Str :=
  if pyStrip buffer = [] then []
  else
    let r := extractSpeakSegments (buffer ++ ['\n'])
    r.1 ++ (if pyStrip r.2 = [] then [] else [pyStrip r.2])

/-- Concatenation of a chunk list (the full final text of the turn). -/
def joinAll (xs : List Str) : Str := xs.flatten

/-- The sequence of spoken segment texts produced by feeding the model output
in the given chunking and force-flushing the residue at end of turn. -/
def transcript (chunks : List Str) : List Str :=
  let r := feedChunks [] chunks
  r.1 ++ endFlush r.2

/-- The segmenter state with its emitted segments cleared. -/
def stripSegs (st : SegSt) : SegSt := ⟨[], st.text, st.items, st.inList⟩

/-- The pending (unflushed) content of a segmenter state, as the flat list of
buffer lines it is rebuilt into (the list block renumbered, then the text
lines). -/
def pendingLines (st : SegSt) : List Str :=
  (if st.inList ∧ st.items ≠ [] then renumber st.items else []) ++ st.text

/-- What `_extract_speak_segments` guarantees about every line it keeps in
`current_text_lines`: already right-stripped, not blank, not a list item, not
ending in sentence punctuation (else it would have been flushed), and free of
newlines. -/
def PendingTextLine (l : Str) : Prop :=
  pyRstrip l = l ∧ pyStrip l ≠ [] ∧ parseListItem l = none
    ∧ endsWithAny (pyStrip l) ['.', '!', '?'] = false ∧ '\n' ∉ l

/-- What it guarantees about every stored list item: non-empty, fully
stripped, and free of newlines. -/
def PendingItem (it : Str) : Prop := it ≠ [] ∧ pyStrip it = it ∧ '\n' ∉ it

/-- The reachable-state invariant of the segmenter fold: `in_list` tracks
whether items are pending, pending items exclude pending text, and both kinds
of pending content can be faithfully re-parsed from the rebuilt remainder. -/
def SegInv (st : SegSt) : Prop :=
  (st.inList = true ↔ st.items ≠ []) ∧ (st.items ≠ [] → st.text = [])
    ∧ (∀ l ∈ st.text, PendingTextLine l) ∧ (∀ it ∈ st.items, PendingItem it)

/- ----------------------------------------------------------------
Tool catalog: `_filter_tools` from `src/chat/mcp_bridge.py`.
---------------------------------------------------------------- -/

/-- An MCP tool as seen by the bridge: its name and its `_fastmcp` tag set
(computed by `_tool_tags`). -/
structure MCPTool where
  name : Str
  tags : List Str
  deriving Repr, DecidableEq

/-- `_filter_tools(tools, allowed_names=..., allowed_tags=..., required_tags=...)`.
`none` models a Python `None` argument.  Python's `set(x or [])` makes an
empty list indistinguishable from `None` for `allowed_names` and
`required_tags`; only `allowed_tags` has the explicit `is not None` check. -/
def filterTools (tools : List MCPTool) (allowedNames : Option (List Str))
    (allowedTags : Option (List Str)) (requiredTags : Option (List Str)) : List MCPTool :=
  let names := allowedNames.getD []
  let anyTags := allowedTags.getD []
  let tagSet := requiredTags.getD []
  if allowedTags.isSome ∧ anyTags = [] then []
  else
    tools.filter (fun tool =>
      (names.isEmpty || names.contains tool.name)
        && (anyTags.isEmpty || tool.tags.any (fun t => anyTags.contains t))
        && (tagSet.isEmpty || tagSet.all (fun t => tool.tags.contains t)))

/- ----------------------------------------------------------------
Confirmation gating: `_CONFIRM_RE`, `_last_user_message_text`,
`_is_user_confirmation` from `src/chat/mcp_bridge.py`.
---------------------------------------------------------------- -/

/-- Python regex `\w` (ASCII fragment): letters, digits, underscore. -/
def isWordChar (c : Char) : Bool := c.isAlpha || c.isDigit || c = '_'

/-- The alternatives of `_CONFIRM_RE` (all lowercase). -/
def confirmVocab : List Str :=
  [("yes").toList, ("yeah").toList, ("yep").toList, ("confirm").toList,
   ("confirmed").toList, ("approve").toList, ("approved").toList, ("ok").toList,
   ("okay").toList, ("go ahead").toList, ("send it").toList, ("do it").toList]

/-- Case-insensitive match of vocabulary word `w` at offset `i` of `text`, with
`\b` boundaries on both sides (every vocabulary word starts and ends with a
word character, so `\b` reduces to the neighbour being absent or non-word). -/
def matchWordAt (text : Str) (i : Nat) (w : Str) : Bool :=
  ((text.drop i).take w.length).map Char.toLower = w
    && (i = 0 || !isWordChar (text.getD (i - 1) ' '))
    && (decide (text.length ≤ i + w.length) || !isWordChar (text.getD (i + w.length) ' '))

/-- `_is_user_confirmation(text)`: `bool(_CONFIRM_RE.search(text))`. -/
def isUserConfirmation (text : Str) : Bool :=
  (List.range (text.length + 1)).any (fun i => confirmVocab.any (fun w => matchWordAt text i w))

/- ----------------------------------------------------------------
Messages and the orchestration loops from `src/chat/mcp_bridge.py`.
---------------------------------------------------------------- -/

/-- One entry of an assistant message's `tool_calls` list (id, function name,
raw JSON `arguments` text).  Argument parsing (`json.loads`, degrading to an
empty object) is absorbed into the `callTool` collaborator, which receives the
raw text. -/
structure ToolCall where
  id : Str
  name : Str
  arguments : Str
  deriving Repr, DecidableEq

/-- A conversation message dict: role, optional content, optional
`tool_call_id` (tool messages), and `tool_calls` (assistant messages; `[]`
models an absent key). -/
structure Msg where
  role : Str
  content : Option Str
  toolCallId : Option Str
  toolCalls : List ToolCall
  deriving Repr, DecidableEq

def systemRole : Str := ("system").toList
def userRole : Str := ("user").toList
def assistantRole : Str := ("assistant").toList
def toolRole : Str := ("tool").toList

/-- `_last_user_message_text(conversation)`. -/
def lastUserMessageText (conversation : List Msg) : Str :=
  match conversation.reverse.find? (fun m => decide (m.role = userRole)) with
  | some m => m.content.getD []
  | none => []

def requiresConfirmationTag : Str := ("requires_confirmation").toList

/-- The literal `json.dumps` output of the synthetic confirmation-error payload
(`\x7b`/`\x7d` are the `{`/`}` characters), parameterized by the tool name. -/
def confirmationErrorPayload (toolName : Str) : Str :=
  ("\x7b\"status\": \"error\", \"message\": \"User confirmation required before executing this action. Ask the user to confirm, then call the tool again.\", \"tool\": \"").toList
    ++ toolName ++ ("\"\x7d").toList

/-- One tool invocation with the confirmation gate (the per-call body shared by
`run_chat_with_mcp_tools` and `run_chat_with_mcp_tools_streaming`).
`callTool name arguments` models `_stringify_tool_result(await
client.call_tool(...))`.  The boolean records whether the underlying tool was
actually invoked. -/
def execToolCall (tagsOf : Str → List Str) (conversation : List Msg)
    (callTool : Str → Str → Str) (name arguments : Str) : Bool × Str :=
  if requiresConfirmationTag ∈ tagsOf name then
    if isUserConfirmation (lastUserMessageText conversation) then
      (true, callTool name arguments)
    else
      (false, confirmationErrorPayload name)
  else
    (true, callTool name arguments)

def successNudgeText : Str :=
  ("The tool call succeeded. Use its structured data to answer directly and do not say you lack access.").toList

def failureNudgeText : Str :=
  ("The tool call failed or returned an error. Explain the issue using the tool output and offer next steps.").toList

/-- The single system nudge appended after a round of tool calls. -/
def nudgeMsg (toolSuccess : Bool) : Msg :=
  ⟨systemRole, some (if toolSuccess then successNudgeText else failureNudgeText), none, []⟩

/-- The `tool` message appended for one executed tool call. -/
def toolMsg (c : ToolCall) (payload : Str) : Msg :=
  ⟨toolRole, some payload, some c.id, []⟩

/-- What the LLM returns for one buffered completion
(`response.choices[0].message`). -/
structure AssistantOut where
  content : Option Str
  toolCalls : List ToolCall
  deriving Repr, DecidableEq

/-- The `assistant_entry` dict appended verbatim to the conversation. -/
def assistantMsgOf (a : AssistantOut) : Msg :=
  ⟨assistantRole, a.content, none, a.toolCalls⟩

/-- The `for call in assistant_msg.tool_calls` body: executes every call in
order, appending one `tool` message per call, or-ing the per-call success
classification (`isSuccess` models the `json.loads`/`status == "success"`
check) and collecting the `tool_summaries` entries. -/
def execRound (tagsOf : Str → List Str) (callTool : Str → Str → Str)
    (isSuccess : Str → Bool) : List Msg → List ToolCall →
    List Msg × Bool × List (Str × Str × Str)
  | conversation, [] => (conversation, (false, []))
  | conversation, c :: cs =>
      let payload := (execToolCall tagsOf conversation callTool c.name c.arguments).2
      let rest := execRound tagsOf callTool isSuccess (conversation ++ [toolMsg c payload]) cs
      (rest.1, (isSuccess payload || rest.2.1, (c.name, c.arguments, payload) :: rest.2.2))

def maxToolLoops : Nat := 15

def toolLimitMessage : Str :=
  ("I reached the tool-call limit while trying to finish this request. Please try again or adjust the instructions.").toList

/-- Result of a buffered `run_chat_with_mcp_tools` run: the final assistant
content, the number of LLM completions issued, the final conversation and the
tool summaries. -/
structure LoopOut where
  finalContent : Option Str
  llmCalls : Nat
  conversation : List Msg
  summaries : List (Str × Str × Str)
  deriving Repr, DecidableEq

/-- One buffered round after the assistant requested tool calls: append the
assistant entry, execute every call, append the nudge.  Returns the new
conversation, the round's success flag and its summaries. -/
def roundAppend (tagsOf : Str → List Str) (callTool : Str → Str → Str)
    (isSuccess : Str → Bool) (conversation : List Msg) (a : AssistantOut) :
    List Msg × Bool × List (Str × Str × Str) :=
  let r := execRound tagsOf callTool isSuccess (conversation ++ [assistantMsgOf a]) a.toolCalls
  (r.1 ++ [nudgeMsg r.2.1], r.2)

/-- The `while True` loop of `run_chat_with_mcp_tools`, starting from the
already-built initial conversation (system preamble, context prefix, history
and tool-availability notice are all inside `conversation`).  `oracle` models
one `llm.chat.completions.create` call.  The loop exits through the
`loop_count >= max_tool_loops` check exactly as in the source; `fuel` is only
a structural-recursion bound and is kept at least `maxToolLoops - loopCount`
by the wrapper, which makes its zero branch unreachable. -/
def runChatWithMcpToolsAux (oracle : List Msg → AssistantOut) (tagsOf : Str → List Str)
    (callTool : Str → Str → Str) (isSuccess : Str → Bool) :
    Nat → List Msg → List (Str × Str × Str) → Nat → LoopOut
  | fuel, conversation, summaries, loopCount =>
    let a := oracle conversation
    if a.toolCalls = [] then ⟨a.content, 1, conversation ++ [assistantMsgOf a], summaries⟩
    else
      let r := roundAppend tagsOf callTool isSuccess conversation a
      if maxToolLoops ≤ loopCount + 1 then
        ⟨some toolLimitMessage, 1, r.1, summaries ++ r.2.2⟩
      else
        match fuel with
        | 0 => ⟨some toolLimitMessage, 1, r.1, summaries ++ r.2.2⟩
        | fuel + 1 =>
            let rest := runChatWithMcpToolsAux oracle tagsOf callTool isSuccess fuel r.1
              (summaries ++ r.2.2) (loopCount + 1)
            ⟨rest.finalContent, rest.llmCalls + 1, rest.conversation, rest.summaries⟩

/-- `run_chat_with_mcp_tools` from the initial conversation and `loop_count`. -/
def runChatWithMcpTools (oracle : List Msg → AssistantOut) (tagsOf : Str → List Str)
    (callTool : Str → Str → Str) (isSuccess : Str → Bool) (conversation : List Msg)
    (summaries : List (Str × Str × Str)) (loopCount : Nat) : LoopOut :=
  runChatWithMcpToolsAux oracle tagsOf callTool isSuccess (maxToolLoops - loopCount)
    conversation summaries loopCount

/-- The events yielded by `run_chat_with_mcp_tools_streaming`. -/
inductive StreamEvent where
  | textDelta (text : Str)
  | toolCallStart (name arguments : Str)
  | toolCallResult (name result : Str)
  | errorEvent (message : Str)
  | doneEvent (fullText : Str)
  deriving Repr, DecidableEq

/-- One streamed LLM round after delta accumulation: the non-assembled text
chunks (in arrival order) and the fully assembled tool calls (sorted by
index). -/
structure StreamRound where
  chunks : List Str
  toolCalls : List ToolCall
  deriving Repr, DecidableEq

/-- Result of a streaming run: the yielded events, final conversation,
accumulated `full_text`, number of LLM rounds, and tool summaries (the `done`
event also carries the summaries and conversation in the source). -/
structure StreamOut where
  events : List StreamEvent
  conversation : List Msg
  fullText : Str
  rounds : Nat
  summaries : List (Str × Str × Str)
  deriving Repr, DecidableEq

def toolLimitErrorText : Str := ("Tool call limit reached").toList

/-- The per-round tool execution of the streaming loop, also yielding
`tool_call_start` / `tool_call_result` events around each call. -/
def execRoundStreaming (tagsOf : Str → List Str) (callTool : Str → Str → Str)
    (isSuccess : Str → Bool) : List Msg → List ToolCall →
    List StreamEvent × List Msg × Bool × List (Str × Str × Str)
  | conversation, [] => ([], conversation, (false, []))
  | conversation, c :: cs =>
      let payload := (execToolCall tagsOf conversation callTool c.name c.arguments).2
      let rest := execRoundStreaming tagsOf callTool isSuccess
        (conversation ++ [toolMsg c payload]) cs
      (StreamEvent.toolCallStart c.name c.arguments
         :: StreamEvent.toolCallResult c.name payload :: rest.1,
       rest.2.1,
       (isSuccess payload || rest.2.2.1, (c.name, c.arguments, payload) :: rest.2.2.2))

/-- The assistant entry appended by the streaming loop: content is
`current_content or None` where `current_content` is the concatenation of the
non-empty text deltas of the round. -/
def streamAssistantEntry (r : StreamRound) : Msg :=
  let content := joinAll (r.chunks.filter (fun c => c ≠ []))
  ⟨assistantRole, if content = [] then none else some content, none, r.toolCalls⟩

/-- One streaming round after the assistant requested tool calls: append the
assistant entry, execute every call (yielding its events), append the nudge.
Returns the tool events, the new conversation, the success flag and the
summaries. -/
def roundAppendStreaming (tagsOf : Str → List Str) (callTool : Str → Str → Str)
    (isSuccess : Str → Bool) (conversation : List Msg) (r : StreamRound) :
    List StreamEvent × List Msg × Bool × List (Str × Str × Str) :=
  let e := execRoundStreaming tagsOf callTool isSuccess
    (conversation ++ [streamAssistantEntry r]) r.toolCalls
  (e.1, e.2.1 ++ [nudgeMsg e.2.2.1], e.2.2)

/-- The `while True` loop of `run_chat_with_mcp_tools_streaming`; empty text
deltas are skipped (`if delta.content:`), the assistant entry stores
`current_content or None`, and the terminal `done` event is yielded after the
loop exits (same fuel convention as the buffered loop). -/
def runChatWithMcpToolsStreamingAux (oracle : List Msg → StreamRound)
    (tagsOf : Str → List Str) (callTool : Str → Str → Str) (isSuccess : Str → Bool) :
    Nat → List Msg → Str → List (Str × Str × Str) → Nat → StreamOut
  | fuel, conversation, fullText, summaries, loopCount =>
    let r := oracle conversation
    let chunks := r.chunks.filter (fun c => c ≠ [])
    let textEvents := chunks.map StreamEvent.textDelta
    let fullText1 := fullText ++ joinAll chunks
    if r.toolCalls = [] then
      ⟨textEvents ++ [StreamEvent.doneEvent fullText1],
       conversation ++ [streamAssistantEntry r], fullText1, 1, summaries⟩
    else
      let e := roundAppendStreaming tagsOf callTool isSuccess conversation r
      if maxToolLoops ≤ loopCount + 1 then
        ⟨textEvents ++ e.1 ++ [StreamEvent.errorEvent toolLimitErrorText,
                               StreamEvent.doneEvent fullText1],
         e.2.1, fullText1, 1, summaries ++ e.2.2.2⟩
      else
        match fuel with
        | 0 =>
            ⟨textEvents ++ e.1 ++ [StreamEvent.errorEvent toolLimitErrorText,
                                   StreamEvent.doneEvent fullText1],
             e.2.1, fullText1, 1, summaries ++ e.2.2.2⟩
        | fuel + 1 =>
            let rest := runChatWithMcpToolsStreamingAux oracle tagsOf callTool isSuccess fuel
              e.2.1 fullText1 (summaries ++ e.2.2.2) (loopCount + 1)
            ⟨textEvents ++ e.1 ++ rest.events, rest.conversation, rest.fullText,
             rest.rounds + 1, rest.summaries⟩

/-- `run_chat_with_mcp_tools_streaming` from the initial conversation and
`loop_count` (same fuel convention as the buffered loop). -/
def runChatWithMcpToolsStreaming (oracle : List Msg → StreamRound)
    (tagsOf : Str → List Str) (callTool : Str → Str → Str) (isSuccess : Str → Bool)
    (conversation : List Msg) (fullText : Str) (summaries : List (Str × Str × Str))
    (loopCount : Nat) : StreamOut :=
  runChatWithMcpToolsStreamingAux oracle tagsOf callTool isSuccess
    (maxToolLoops - loopCount) conversation fullText summaries loopCount

/- ----------------------------------------------------------------
Session store: `src/chat/session_store.py`.
---------------------------------------------------------------- -/

/-- A `ChatTurn` dataclass. -/
structure ChatTurn where
  role : Str
  content : Option Str
  toolCallId : Option Str
  toolCalls : List ToolCall
  deriving Repr, DecidableEq

/-- A `ChatSession` dataclass. -/
structure ChatSession where
  sessionId : Str
  userId : Str
  turns : List ChatTurn
  slots : List (Str × Str)
  deriving Repr, DecidableEq

/-- `_sessions.get(session_id)` over the module-level dict, modeled as an
association list (insertion order, first match). -/
def lookupStore : List (Str × ChatSession) → Str → Option ChatSession
  | [], _ => none
  | (k, v) :: rest, sid => if k = sid then some v else lookupStore rest sid

/-- In-place mutation of the session object stored under `sid`. -/
def setStore (store : List (Str × ChatSession)) (sid : Str) (s : ChatSession) :
    List (Str × ChatSession) :=
  store.map (fun kv => if kv.1 = sid then (sid, s) else kv)

/-- `get_session(session_id, user_id=...)`: lookup-or-create, with the
`user_id or session_id` default on creation and the
`elif user_id and session.user_id != user_id` silent reassignment.  Returns
the session together with the updated store. -/
def getSession (store : List (Str × ChatSession)) (sessionId : Str)
    (userId : Option Str) : ChatSession × List (Str × ChatSession) :=
  match lookupStore store sessionId with
  | none =>
      let defaulted := match userId with
        | some u => if u = [] then sessionId else u
        | none => sessionId
      let s : ChatSession := ⟨sessionId, defaulted, [], []⟩
      (s, store ++ [(sessionId, s)])
  | some s =>
      match userId with
      | some u =>
          if u ≠ [] ∧ s.userId ≠ u then
            let s2 := { s with userId := u }
            (s2, setStore store sessionId s2)
          else (s, store)
      | none => (s, store)

/-- `trim_history(session, max_turns)`: keep the last `max_turns` turns.
Python's `turns[-max_turns:]` is the whole list when `max_turns == 0`. -/
def trimHistory (turns : List ChatTurn) (maxTurns : Nat) : List ChatTurn :=
  if maxTurns < turns.length then
    if maxTurns = 0 then turns else turns.drop (turns.length - maxTurns)
  else turns

/- ----------------------------------------------------------------
Specification predicates about conversations.
---------------------------------------------------------------- -/

/-- Every `tool`-role message references a `tool_call_id` emitted by a
strictly earlier assistant message of the same conversation. -/
def WfToolHistory (conv : List Msg) : Prop :=
  ∀ pre m post, conv = pre ++ m :: post → m.role = toolRole →
    ∃ am, am ∈ pre ∧ am.role = assistantRole
      ∧ ∃ c, c ∈ am.toolCalls ∧ m.toolCallId = some c.id

/-- The shape of one tool-call round as appended to the conversation: the
assistant message first (verbatim, even with empty/null content), then one
tool message per requested call in tool-call order, then the single system
nudge. -/
def RoundBlock (b : List Msg) : Prop :=
  ∃ (a : AssistantOut) (payloads : List Str) (succ : Bool),
    a.toolCalls ≠ [] ∧ payloads.length = a.toolCalls.length
      ∧ b = assistantMsgOf a :: (List.zipWith toolMsg a.toolCalls payloads ++ [nudgeMsg succ])

/-- What a loop run appends after its complete rounds: nothing (cap reached)
or a final assistant message with no tool calls. -/
def FinalTail (t : List Msg) : Prop :=
  t = [] ∨ ∃ a : AssistantOut, a.toolCalls = [] ∧ t = [assistantMsgOf a]

/- ----------------------------------------------------------------
Concrete fixtures used to evaluate the theorems on closed inputs.
---------------------------------------------------------------- -/

def noTags : Str → List Str := fun _ => []

def constantTags : Str → List Str := fun _ => [requiresConfirmationTag]

def emptyCallTool : Str → Str → Str := fun _ _ => []

def falseSuccess : Str → Bool := fun _ => false

def convNoConfirm : List Msg := [⟨userRole, some (("create the event").toList), none, []⟩]

def convConfirm : List Msg := [⟨userRole, some (("yes, go ahead").toList), none, []⟩]

def sampleCall : ToolCall := ⟨("call_1").toList, ("create_event").toList, []⟩

def alwaysToolOracle : List Msg → AssistantOut := fun _ => ⟨none, [sampleCall]⟩

def alwaysToolStreamOracle : List Msg → StreamRound := fun _ => ⟨[], [sampleCall]⟩

end VoiceAssistant

/- ================================================================
Theorems.
================================================================ -/

namespace VoiceAssistant

theorem lookupStore_append_of_none (store : List (Str × ChatSession)) (l : List (Str × ChatSession))
    (sid : Str) (h : lookupStore store sid = none) :
    lookupStore (store ++ l) sid = lookupStore l sid := by
  induction store with
  | nil => rfl
  | cons kv rest ih =>
      obtain ⟨k, v⟩ := kv
      rcases eq_or_ne k sid with hk | hk
      · simp [lookupStore, hk] at h
      · simp only [lookupStore, hk, if_false, List.cons_append] at h ⊢
        exact ih h

theorem lookupStore_setStore (store : List (Str × ChatSession)) (sid : Str)
    (s s2 : ChatSession) (h : lookupStore store sid = some s) :
    lookupStore (setStore store sid s2) sid = some s2 := by
  induction store with
  | nil => simp [lookupStore] at h
  | cons kv rest ih =>
      obtain ⟨k, v⟩ := kv
      rcases eq_or_ne k sid with hk | hk
      · subst hk
        simp only [setStore, List.map_cons]
        simp [lookupStore]
      · simp only [lookupStore, hk, if_false] at h
        have hfix : (fun kv : Str × ChatSession => if kv.1 = sid then (sid, s2) else kv) (k, v)
            = (k, v) := by simp [hk]
        simp only [setStore, List.map_cons, hfix]
        simp only [lookupStore, hk, if_false]
        exact ih h

/-- Claim C10: `get_session` is a lookup-or-create.  A first call with no
`user_id` creates a session whose `user_id` equals the `session_id` (and
registers it in the store); a later call with the same `session_id` returns
the same session unchanged; and a later call supplying a different non-empty
`user_id` silently reassigns the session's `user_id` while keeping its
turns. -/
theorem getSession_lookup_or_create (store : List (Str × ChatSession)) (sid : Str) :
    (lookupStore store sid = none →
      (getSession store sid none).1.sessionId = sid
        ∧ (getSession store sid none).1.userId = sid
        ∧ (getSession store sid none).1.turns = []
        ∧ lookupStore (getSession store sid none).2 sid = some (getSession store sid none).1)
    ∧ (∀ s, lookupStore store sid = some s → getSession store sid none = (s, store))
    ∧ (∀ s u, lookupStore store sid = some s → u ≠ [] → s.userId ≠ u →
        (getSession store sid (some u)).1.userId = u
          ∧ (getSession store sid (some u)).1.turns = s.turns
          ∧ (getSession store sid (some u)).1.sessionId = s.sessionId
          ∧ lookupStore (getSession store sid (some u)).2 sid
              = some (getSession store sid (some u)).1) := by
  refine ⟨?_, ?_, ?_⟩
  · intro h
    simp [getSession, h, lookupStore_append_of_none _ _ _ h, lookupStore]
  · intro s h
    simp [getSession, h]
  · intro s u h hu hne
    simp [getSession, h, hu, hne, lookupStore_setStore _ _ _ _ h]

/-- Witness for C10 at concrete inputs: an empty store (creation), then a
store holding that session (reassignment of a different non-empty user id). -/
theorem getSession_lookup_or_create_witness :
    ((getSession [] (("s1").toList) none).1.sessionId = ("s1").toList
        ∧ (getSession [] (("s1").toList) none).1.userId = ("s1").toList
        ∧ (getSession [] (("s1").toList) none).1.turns = []
        ∧ lookupStore (getSession [] (("s1").toList) none).2 (("s1").toList)
            = some (getSession [] (("s1").toList) none).1)
    ∧ ((getSession [((("s1").toList), ⟨("s1").toList, ("s1").toList, [], []⟩)]
          (("s1").toList) (some (("u2").toList))).1.userId = ("u2").toList
        ∧ (getSession [((("s1").toList), ⟨("s1").toList, ("s1").toList, [], []⟩)]
            (("s1").toList) (some (("u2").toList))).1.turns
            = (⟨("s1").toList, ("s1").toList, [], []⟩ : ChatSession).turns) :=
  ⟨(getSession_lookup_or_create [] (("s1").toList)).1 (by decide),
   ⟨((getSession_lookup_or_create [((("s1").toList), ⟨("s1").toList, ("s1").toList, [], []⟩)]
        (("s1").toList)).2.2 ⟨("s1").toList, ("s1").toList, [], []⟩ (("u2").toList)
        (by decide) (by decide) (by decide)).1,
    ((getSession_lookup_or_create [((("s1").toList), ⟨("s1").toList, ("s1").toList, [], []⟩)]
        (("s1").toList)).2.2 ⟨("s1").toList, ("s1").toList, [], []⟩ (("u2").toList)
        (by decide) (by decide) (by decide)).2.1⟩⟩

/-- Claim C3: an explicitly provided empty `allowed_tags` set is a kill
switch — `_filter_tools` returns the empty list regardless of the tool list,
`allowed_names` and `required_tags`. -/
theorem filterTools_empty_allowed_tags (tools : List MCPTool)
    (allowedNames requiredTags : Option (List Str)) :
    filterTools tools allowedNames (some []) requiredTags = [] := by
  simp [filterTools]

/-- Claim C4 (failing input): contrary to the spec, an explicitly empty
`allowed_names` list imposes no name restriction at all (`set(allowed_names
or [])` cannot distinguish `[]` from `None`), so a tool passes the filter
instead of being excluded; in general `allowed_names=[]` behaves exactly like
`allowed_names=None`. -/
theorem filterTools_empty_allowed_names_not_restricting :
    filterTools [⟨("create_event").toList, [("gmail").toList]⟩] (some []) none none
        = [⟨("create_event").toList, [("gmail").toList]⟩]
      ∧ ∀ (tools : List MCPTool) (allowedTags requiredTags : Option (List Str)),
          filterTools tools (some []) allowedTags requiredTags
            = filterTools tools none allowedTags requiredTags := by
  constructor
  · decide
  · intro tools allowedTags requiredTags
    simp [filterTools]

theorem trimHistory_suffix (turns : List ChatTurn) (maxTurns : Nat) :
    trimHistory turns maxTurns <:+ turns := by
  unfold trimHistory
  split
  · split
    · exact List.suffix_rfl
    · exact List.drop_suffix _ _
  · exact List.suffix_rfl

/-- Claim C8 (counterexample): `trim_history` is a plain suffix cut by turn
count, so trimming `[assistant(tool_calls=[call_1]), tool(call_1)]` to one
turn leaves the `tool` turn stranded without any assistant turn. -/
theorem trimHistory_strands_tool_turn :
    trimHistory [⟨assistantRole, none, none, [sampleCall]⟩,
                 ⟨toolRole, some [], some (("call_1").toList), []⟩] 1
        = [⟨toolRole, some [], some (("call_1").toList), []⟩]
      ∧ ∀ t ∈ trimHistory [⟨assistantRole, none, none, [sampleCall]⟩,
                 ⟨toolRole, some [], some (("call_1").toList), []⟩] 1,
          t.role ≠ assistantRole := by
  decide

/-- Claim C8 (amended): trimming keeps the most recent turns as a contiguous
suffix of the history, hence preserves the relative order of the remaining
turns — but it is not round-aware and may strand a `tool` turn. -/
theorem trimHistory_order_preserving (turns : List ChatTurn) (maxTurns : Nat) :
    (trimHistory turns maxTurns).Sublist turns :=
  (trimHistory_suffix turns maxTurns).sublist

/-- Claim C1: for every conversation and every tool whose tag set contains
`requires_confirmation`, if the most recent user message does not match the
confirmation vocabulary the underlying tool is never called and the synthetic
`status:"error"` payload referencing the tool name is returned; if it does
match, the underlying tool is called. -/
theorem confirmationGate (tagsOf : Str → List Str) (conversation : List Msg)
    (callTool : Str → Str → Str) (name arguments : Str)
    (hTag : requiresConfirmationTag ∈ tagsOf name) :
    (isUserConfirmation (lastUserMessageText conversation) = false →
      execToolCall tagsOf conversation callTool name arguments
        = (false, confirmationErrorPayload name))
    ∧ (isUserConfirmation (lastUserMessageText conversation) = true →
      execToolCall tagsOf conversation callTool name arguments
        = (true, callTool name arguments)) := by
  constructor <;> intro h <;> simp [execToolCall, hTag, h]

/-- Witness for C1: with last user message `"create the event"` the gate
blocks the call and produces the error payload; after `"yes, go ahead"` the
underlying tool is called. -/
theorem confirmationGate_witness :
    (requiresConfirmationTag ∈ constantTags (("create_event").toList))
      ∧ execToolCall constantTags convNoConfirm emptyCallTool (("create_event").toList) []
          = (false, confirmationErrorPayload (("create_event").toList))
      ∧ execToolCall constantTags convConfirm emptyCallTool (("create_event").toList) []
          = (true, emptyCallTool (("create_event").toList) []) :=
  ⟨by decide,
   (confirmationGate constantTags convNoConfirm emptyCallTool (("create_event").toList) []
      (by decide)).1 (by decide),
   (confirmationGate constantTags convConfirm emptyCallTool (("create_event").toList) []
      (by decide)).2 (by decide)⟩

theorem runChatAux_calls_le (o : List Msg → AssistantOut) (tg : Str → List Str)
    (ct : Str → Str → Str) (su : Str → Bool) :
    ∀ fuel lc conv summ,
      (runChatWithMcpToolsAux o tg ct su fuel conv summ lc).llmCalls
        ≤ max (maxToolLoops - lc) 1 := by
  intro fuel
  induction fuel with
  | zero =>
      intro lc conv summ
      rw [runChatWithMcpToolsAux]
      split
      · exact le_max_right _ _
      · split
        · exact le_max_right _ _
        · exact le_max_right _ _
  | succ n ih =>
      intro lc conv summ
      rw [runChatWithMcpToolsAux]
      split
      · exact le_max_right _ _
      · split
        · exact le_max_right _ _
        · rename_i hcap
          have h1 := ih (lc + 1) (roundAppend tg ct su conv (o conv)).1
            (summ ++ (roundAppend tg ct su conv (o conv)).2.2)
          show (runChatWithMcpToolsAux o tg ct su n (roundAppend tg ct su conv (o conv)).1
              (summ ++ (roundAppend tg ct su conv (o conv)).2.2) (lc + 1)).llmCalls + 1
            ≤ max (maxToolLoops - lc) 1
          simp only [maxToolLoops] at hcap h1 ⊢
          omega

theorem runChatAux_always_tool (o : List Msg → AssistantOut) (tg : Str → List Str)
    (ct : Str → Str → Str) (su : Str → Bool) (h : ∀ m, (o m).toolCalls ≠ []) :
    ∀ fuel lc conv summ, maxToolLoops - lc ≤ fuel + 1 → lc < maxToolLoops →
      (runChatWithMcpToolsAux o tg ct su fuel conv summ lc).llmCalls = maxToolLoops - lc
        ∧ (runChatWithMcpToolsAux o tg ct su fuel conv summ lc).finalContent
            = some toolLimitMessage := by
  intro fuel
  induction fuel with
  | zero =>
      intro lc conv summ hf hlc
      rw [runChatWithMcpToolsAux]
      split
      · rename_i hnil; exact absurd hnil (h conv)
      · split
        · rename_i hcap
          refine ⟨?_, rfl⟩
          show (1 : Nat) = maxToolLoops - lc
          simp only [maxToolLoops] at hcap hlc ⊢
          omega
        · rename_i hcap
          exfalso
          simp only [maxToolLoops] at hf hcap
          omega
  | succ n ih =>
      intro lc conv summ hf hlc
      rw [runChatWithMcpToolsAux]
      split
      · rename_i hnil; exact absurd hnil (h conv)
      · split
        · rename_i hcap
          refine ⟨?_, rfl⟩
          show (1 : Nat) = maxToolLoops - lc
          simp only [maxToolLoops] at hcap hlc ⊢
          omega
        · rename_i hcap
          have hf' : maxToolLoops - (lc + 1) ≤ n + 1 := by
            simp only [maxToolLoops] at hf ⊢; omega
          have hlc' : lc + 1 < maxToolLoops := by
            simp only [maxToolLoops] at hcap ⊢; omega
          have hrec := ih (lc + 1) (roundAppend tg ct su conv (o conv)).1
            (summ ++ (roundAppend tg ct su conv (o conv)).2.2) hf' hlc'
          refine ⟨?_, hrec.2⟩
          show (runChatWithMcpToolsAux o tg ct su n (roundAppend tg ct su conv (o conv)).1
              (summ ++ (roundAppend tg ct su conv (o conv)).2.2) (lc + 1)).llmCalls + 1
            = maxToolLoops - lc
          rw [hrec.1]
          simp only [maxToolLoops] at hcap ⊢
          omega

theorem ne_nil_of_getLast?_eq_some {α : Type} {l : List α} {x : α}
    (h : l.getLast? = some x) : l ≠ [] := by
  intro he
  subst he
  simp at h

theorem runStreamAux_rounds_le (o : List Msg → StreamRound) (tg : Str → List Str)
    (ct : Str → Str → Str) (su : Str → Bool) :
    ∀ fuel lc conv ft summ,
      (runChatWithMcpToolsStreamingAux o tg ct su fuel conv ft summ lc).rounds
        ≤ max (maxToolLoops - lc) 1 := by
  intro fuel
  induction fuel with
  | zero =>
      intro lc conv ft summ
      rw [runChatWithMcpToolsStreamingAux]
      split
      · exact le_max_right _ _
      · split
        · exact le_max_right _ _
        · exact le_max_right _ _
  | succ n ih =>
      intro lc conv ft summ
      rw [runChatWithMcpToolsStreamingAux]
      split
      · exact le_max_right _ _
      · split
        · exact le_max_right _ _
        · rename_i hcap
          have h1 := ih (lc + 1) (roundAppendStreaming tg ct su conv (o conv)).2.1
            (ft ++ joinAll ((o conv).chunks.filter (fun c => c ≠ [])))
            (summ ++ (roundAppendStreaming tg ct su conv (o conv)).2.2.2)
          show (runChatWithMcpToolsStreamingAux o tg ct su n
              (roundAppendStreaming tg ct su conv (o conv)).2.1
              (ft ++ joinAll ((o conv).chunks.filter (fun c => c ≠ [])))
              (summ ++ (roundAppendStreaming tg ct su conv (o conv)).2.2.2) (lc + 1)).rounds + 1
            ≤ max (maxToolLoops - lc) 1
          simp only [maxToolLoops] at hcap h1 ⊢
          omega

theorem runStreamAux_cap_error (o : List Msg → StreamRound) (tg : Str → List Str)
    (ct : Str → Str → Str) (su : Str → Bool) (h : ∀ m, (o m).toolCalls ≠ []) :
    ∀ fuel lc conv ft summ,
      StreamEvent.errorEvent toolLimitErrorText
          ∈ (runChatWithMcpToolsStreamingAux o tg ct su fuel conv ft summ lc).events
        ∧ ∃ ft2, (runChatWithMcpToolsStreamingAux o tg ct su fuel conv ft summ lc).events.getLast?
            = some (StreamEvent.doneEvent ft2) := by
  intro fuel
  induction fuel with
  | zero =>
      intro lc conv ft summ
      rw [runChatWithMcpToolsStreamingAux]
      split
      · rename_i hnil; exact absurd hnil (h conv)
      · split
        · constructor
          · dsimp only
            simp
          · exact ⟨_, by dsimp only; rw [List.getLast?_append_cons]; rfl⟩
        · constructor
          · dsimp only
            simp
          · exact ⟨_, by dsimp only; rw [List.getLast?_append_cons]; rfl⟩
  | succ n ih =>
      intro lc conv ft summ
      rw [runChatWithMcpToolsStreamingAux]
      split
      · rename_i hnil; exact absurd hnil (h conv)
      · split
        · constructor
          · dsimp only
            simp
          · exact ⟨_, by dsimp only; rw [List.getLast?_append_cons]; rfl⟩
        · obtain ⟨hmem, ft2, hlast⟩ := ih (lc + 1)
            (roundAppendStreaming tg ct su conv (o conv)).2.1
            (ft ++ joinAll ((o conv).chunks.filter (fun c => c ≠ [])))
            (summ ++ (roundAppendStreaming tg ct su conv (o conv)).2.2.2)
          constructor
          · dsimp only
            exact List.mem_append_right _ hmem
          · refine ⟨ft2, ?_⟩
            dsimp only
            rw [List.getLast?_append_of_ne_nil _ (ne_nil_of_getLast?_eq_some hlast)]
            exact hlast

/-- Claim C2: both orchestration loops terminate for every model oracle (the
number of LLM rounds from `loop_count = 0` is at most 15), and with a model
that requests a tool call on every completion the buffered loop stops after
exactly 15 rounds with the fixed "reached the tool-call limit" assistant
message as final output. -/
theorem orchestrationLoopTerminates (oracle : List Msg → AssistantOut)
    (oracleS : List Msg → StreamRound) (tagsOf : Str → List Str)
    (callTool : Str → Str → Str) (isSuccess : Str → Bool) (conv : List Msg)
    (ft : Str) (summ : List (Str × Str × Str)) :
    (runChatWithMcpTools oracle tagsOf callTool isSuccess conv summ 0).llmCalls ≤ maxToolLoops
    ∧ (runChatWithMcpToolsStreaming oracleS tagsOf callTool isSuccess conv ft summ 0).rounds
        ≤ maxToolLoops
    ∧ ((∀ m, (oracle m).toolCalls ≠ []) →
        (runChatWithMcpTools oracle tagsOf callTool isSuccess conv summ 0).llmCalls
            = maxToolLoops
        ∧ (runChatWithMcpTools oracle tagsOf callTool isSuccess conv summ 0).finalContent
            = some toolLimitMessage) := by
  refine ⟨?_, ?_, ?_⟩
  · have h1 := runChatAux_calls_le oracle tagsOf callTool isSuccess (maxToolLoops - 0) 0 conv summ
    have h2 : max (maxToolLoops - 0) 1 = maxToolLoops := by decide
    rw [h2] at h1
    exact h1
  · have h1 := runStreamAux_rounds_le oracleS tagsOf callTool isSuccess (maxToolLoops - 0) 0
      conv ft summ
    have h2 : max (maxToolLoops - 0) 1 = maxToolLoops := by decide
    rw [h2] at h1
    exact h1
  · intro hAll
    have h1 := runChatAux_always_tool oracle tagsOf callTool isSuccess hAll (maxToolLoops - 0)
      0 conv summ (by decide) (by decide)
    simpa [runChatWithMcpTools] using h1

/-- Witness for C2: a model oracle that always requests one tool call makes
the buffered loop stop after exactly 15 rounds with the fixed limit
message. -/
theorem orchestrationLoopTerminates_witness :
    (runChatWithMcpTools alwaysToolOracle noTags emptyCallTool falseSuccess [] [] 0).llmCalls
        = maxToolLoops
      ∧ (runChatWithMcpTools alwaysToolOracle noTags emptyCallTool falseSuccess
          [] [] 0).finalContent = some toolLimitMessage :=
  (orchestrationLoopTerminates alwaysToolOracle alwaysToolStreamOracle noTags emptyCallTool
    falseSuccess [] [] []).2.2 (fun m => by simp [alwaysToolOracle])

/-- Claim C9 (counterexample): when the streaming loop hits the iteration
cap, it does yield an `error` event (`"Tool call limit reached"`) to the
caller, contradicting the claim that the cap is never reported as an
error. -/
theorem streamingCapEmitsErrorEvent :
    StreamEvent.errorEvent toolLimitErrorText
      ∈ (runChatWithMcpToolsStreaming alwaysToolStreamOracle noTags emptyCallTool falseSuccess
          [] [] [] 0).events := by
  decide

/-- Claim C9 (amended): at the iteration cap the buffered loop ends with the
graceful fixed assistant message; the streaming loop instead yields an
`error` event (`"Tool call limit reached"`) — but still terminates normally
with a final `done` event rather than aborting. -/
theorem capBehaviorByMode (oracle : List Msg → AssistantOut)
    (oracleS : List Msg → StreamRound) (tagsOf : Str → List Str)
    (callTool : Str → Str → Str) (isSuccess : Str → Bool) (conv : List Msg)
    (ft : Str) (summ : List (Str × Str × Str))
    (hB : ∀ m, (oracle m).toolCalls ≠ []) (hS : ∀ m, (oracleS m).toolCalls ≠ []) :
    (runChatWithMcpTools oracle tagsOf callTool isSuccess conv summ 0).finalContent
        = some toolLimitMessage
    ∧ StreamEvent.errorEvent toolLimitErrorText
        ∈ (runChatWithMcpToolsStreaming oracleS tagsOf callTool isSuccess conv ft summ 0).events
    ∧ ∃ ft2, (runChatWithMcpToolsStreaming oracleS tagsOf callTool isSuccess
          conv ft summ 0).events.getLast? = some (StreamEvent.doneEvent ft2) := by
  refine ⟨?_, ?_, ?_⟩
  · exact (runChatAux_always_tool oracle tagsOf callTool isSuccess hB (maxToolLoops - 0)
      0 conv summ (by decide) (by decide)).2
  · exact (runStreamAux_cap_error oracleS tagsOf callTool isSuccess hS (maxToolLoops - 0)
      0 conv ft summ).1
  · exact (runStreamAux_cap_error oracleS tagsOf callTool isSuccess hS (maxToolLoops - 0)
      0 conv ft summ).2

/-- Witness for the amended C9 at concrete inputs. -/
theorem capBehaviorByMode_witness :
    (runChatWithMcpTools alwaysToolOracle noTags emptyCallTool falseSuccess [] [] 0).finalContent
        = some toolLimitMessage
    ∧ StreamEvent.errorEvent toolLimitErrorText
        ∈ (runChatWithMcpToolsStreaming alwaysToolStreamOracle noTags emptyCallTool falseSuccess
            [] [] [] 0).events
    ∧ ∃ ft2, (runChatWithMcpToolsStreaming alwaysToolStreamOracle noTags emptyCallTool
          falseSuccess [] [] [] 0).events.getLast? = some (StreamEvent.doneEvent ft2) :=
  capBehaviorByMode alwaysToolOracle alwaysToolStreamOracle noTags emptyCallTool falseSuccess
    [] [] [] (fun m => by simp [alwaysToolOracle]) (fun m => by simp [alwaysToolStreamOracle])

theorem mem_zipWith {α β γ : Type} (f : α → β → γ) :
    ∀ (as : List α) (bs : List β) (x : γ), x ∈ List.zipWith f as bs →
      ∃ a b, a ∈ as ∧ b ∈ bs ∧ x = f a b := by
  intro as
  induction as with
  | nil => intro bs x hx; simp at hx
  | cons a as ih =>
      intro bs x hx
      cases bs with
      | nil => simp at hx
      | cons b bs =>
          simp only [List.zipWith_cons_cons, List.mem_cons] at hx
          rcases hx with h | h
          · exact ⟨a, b, by simp, by simp, h⟩
          · obtain ⟨a2, b2, ha, hb2, hx⟩ := ih bs x h
            exact ⟨a2, b2, by simp [ha], by simp [hb2], hx⟩

theorem execRound_conversation (tg : Str → List Str) (ct : Str → Str → Str) (su : Str → Bool) :
    ∀ (calls : List ToolCall) (conv : List Msg),
      ∃ payloads : List Str, payloads.length = calls.length
        ∧ (execRound tg ct su conv calls).1 = conv ++ List.zipWith toolMsg calls payloads := by
  intro calls
  induction calls with
  | nil => intro conv; exact ⟨[], rfl, by simp [execRound]⟩
  | cons c cs ih =>
      intro conv
      obtain ⟨ps, hlen, heq⟩ :=
        ih (conv ++ [toolMsg c (execToolCall tg conv ct c.name c.arguments).2])
      refine ⟨(execToolCall tg conv ct c.name c.arguments).2 :: ps, by simp [hlen], ?_⟩
      show (execRound tg ct su
          (conv ++ [toolMsg c (execToolCall tg conv ct c.name c.arguments).2]) cs).1
        = conv ++ List.zipWith toolMsg (c :: cs)
            ((execToolCall tg conv ct c.name c.arguments).2 :: ps)
      rw [heq]
      simp [List.append_assoc]

theorem execRoundStreaming_conversation (tg : Str → List Str) (ct : Str → Str → Str)
    (su : Str → Bool) :
    ∀ (calls : List ToolCall) (conv : List Msg),
      ∃ payloads : List Str, payloads.length = calls.length
        ∧ (execRoundStreaming tg ct su conv calls).2.1
            = conv ++ List.zipWith toolMsg calls payloads := by
  intro calls
  induction calls with
  | nil => intro conv; exact ⟨[], rfl, by simp [execRoundStreaming]⟩
  | cons c cs ih =>
      intro conv
      obtain ⟨ps, hlen, heq⟩ :=
        ih (conv ++ [toolMsg c (execToolCall tg conv ct c.name c.arguments).2])
      refine ⟨(execToolCall tg conv ct c.name c.arguments).2 :: ps, by simp [hlen], ?_⟩
      show (execRoundStreaming tg ct su
          (conv ++ [toolMsg c (execToolCall tg conv ct c.name c.arguments).2]) cs).2.1
        = conv ++ List.zipWith toolMsg (c :: cs)
            ((execToolCall tg conv ct c.name c.arguments).2 :: ps)
      rw [heq]
      simp [List.append_assoc]

theorem roundAppend_shape (tg : Str → List Str) (ct : Str → Str → Str) (su : Str → Bool)
    (conv : List Msg) (a : AssistantOut) :
    ∃ (payloads : List Str) (succ : Bool), payloads.length = a.toolCalls.length
      ∧ (roundAppend tg ct su conv a).1
          = conv ++ (assistantMsgOf a
              :: (List.zipWith toolMsg a.toolCalls payloads ++ [nudgeMsg succ])) := by
  obtain ⟨ps, hlen, heq⟩ := execRound_conversation tg ct su a.toolCalls (conv ++ [assistantMsgOf a])
  refine ⟨ps, (execRound tg ct su (conv ++ [assistantMsgOf a]) a.toolCalls).2.1, hlen, ?_⟩
  show (execRound tg ct su (conv ++ [assistantMsgOf a]) a.toolCalls).1
      ++ [nudgeMsg (execRound tg ct su (conv ++ [assistantMsgOf a]) a.toolCalls).2.1] = _
  rw [heq]
  simp [List.append_assoc]

theorem roundAppendStreaming_shape (tg : Str → List Str) (ct : Str → Str → Str)
    (su : Str → Bool) (conv : List Msg) (r : StreamRound) :
    ∃ (payloads : List Str) (succ : Bool), payloads.length = r.toolCalls.length
      ∧ (roundAppendStreaming tg ct su conv r).2.1
          = conv ++ (streamAssistantEntry r
              :: (List.zipWith toolMsg r.toolCalls payloads ++ [nudgeMsg succ])) := by
  obtain ⟨ps, hlen, heq⟩ :=
    execRoundStreaming_conversation tg ct su r.toolCalls (conv ++ [streamAssistantEntry r])
  refine ⟨ps,
    (execRoundStreaming tg ct su (conv ++ [streamAssistantEntry r]) r.toolCalls).2.2.1, hlen, ?_⟩
  show (execRoundStreaming tg ct su (conv ++ [streamAssistantEntry r]) r.toolCalls).2.1
      ++ [nudgeMsg (execRoundStreaming tg ct su
            (conv ++ [streamAssistantEntry r]) r.toolCalls).2.2.1] = _
  rw [heq]
  simp [List.append_assoc]

theorem runChatAux_structure (o : List Msg → AssistantOut) (tg : Str → List Str)
    (ct : Str → Str → Str) (su : Str → Bool) :
    ∀ fuel conv summ lc,
      ∃ (blocks : List (List Msg)) (tail : List Msg),
        (runChatWithMcpToolsAux o tg ct su fuel conv summ lc).conversation
            = conv ++ blocks.flatten ++ tail
          ∧ (∀ b ∈ blocks, RoundBlock b) ∧ FinalTail tail := by
  have capCase : ∀ (conv : List Msg),
      ¬(o conv).toolCalls = [] →
      ∃ (blocks : List (List Msg)) (tail : List Msg),
        ((roundAppend tg ct su conv (o conv)).1 : List Msg) = conv ++ blocks.flatten ++ tail
          ∧ (∀ b ∈ blocks, RoundBlock b) ∧ FinalTail tail := by
    intro conv hnil
    obtain ⟨ps, succ, hlen, heq⟩ := roundAppend_shape tg ct su conv (o conv)
    refine ⟨[assistantMsgOf (o conv)
        :: (List.zipWith toolMsg (o conv).toolCalls ps ++ [nudgeMsg succ])], [], ?_, ?_,
        Or.inl rfl⟩
    · rw [heq]; simp
    · intro b hb
      simp only [List.mem_singleton] at hb
      subst hb
      exact ⟨o conv, ps, succ, hnil, hlen, rfl⟩
  intro fuel
  induction fuel with
  | zero =>
      intro conv summ lc
      rw [runChatWithMcpToolsAux]
      split
      · rename_i hnil
        refine ⟨[], [assistantMsgOf (o conv)], by simp, by simp, Or.inr ⟨o conv, hnil, rfl⟩⟩
      · rename_i hnil
        split
        · exact capCase conv hnil
        · exact capCase conv hnil
  | succ n ih =>
      intro conv summ lc
      rw [runChatWithMcpToolsAux]
      split
      · rename_i hnil
        refine ⟨[], [assistantMsgOf (o conv)], by simp, by simp, Or.inr ⟨o conv, hnil, rfl⟩⟩
      · rename_i hnil
        split
        · exact capCase conv hnil
        · obtain ⟨ps, succ, hlen, heq⟩ := roundAppend_shape tg ct su conv (o conv)
          obtain ⟨blocks, tail, hconv, hblocks, htail⟩ :=
            ih (roundAppend tg ct su conv (o conv)).1
              (summ ++ (roundAppend tg ct su conv (o conv)).2.2) (lc + 1)
          refine ⟨(assistantMsgOf (o conv)
              :: (List.zipWith toolMsg (o conv).toolCalls ps ++ [nudgeMsg succ])) :: blocks,
            tail, ?_, ?_, htail⟩
          · show (runChatWithMcpToolsAux o tg ct su n (roundAppend tg ct su conv (o conv)).1
                (summ ++ (roundAppend tg ct su conv (o conv)).2.2) (lc + 1)).conversation = _
            rw [hconv, heq]
            simp [List.append_assoc]
          · intro b hb
            rcases List.mem_cons.mp hb with h | h
            · subst h; exact ⟨o conv, ps, succ, hnil, hlen, rfl⟩
            · exact hblocks b h

theorem runStreamAux_structure (o : List Msg → StreamRound) (tg : Str → List Str)
    (ct : Str → Str → Str) (su : Str → Bool) :
    ∀ fuel conv ft summ lc,
      ∃ (blocks : List (List Msg)) (tail : List Msg),
        (runChatWithMcpToolsStreamingAux o tg ct su fuel conv ft summ lc).conversation
            = conv ++ blocks.flatten ++ tail
          ∧ (∀ b ∈ blocks, RoundBlock b) ∧ FinalTail tail := by
  have entryEq : ∀ r : StreamRound, streamAssistantEntry r
      = assistantMsgOf ⟨(let content := joinAll (r.chunks.filter (fun c => c ≠ []));
          if content = [] then none else some content), r.toolCalls⟩ := fun _ => rfl
  have capCase : ∀ conv,
      ¬(o conv).toolCalls = [] →
      ∃ (blocks : List (List Msg)) (tail : List Msg),
        ((roundAppendStreaming tg ct su conv (o conv)).2.1 : List Msg)
            = conv ++ blocks.flatten ++ tail
          ∧ (∀ b ∈ blocks, RoundBlock b) ∧ FinalTail tail := by
    intro conv hnil
    obtain ⟨ps, succ, hlen, heq⟩ := roundAppendStreaming_shape tg ct su conv (o conv)
    refine ⟨[streamAssistantEntry (o conv)
        :: (List.zipWith toolMsg (o conv).toolCalls ps ++ [nudgeMsg succ])], [], ?_, ?_,
        Or.inl rfl⟩
    · rw [heq]; simp
    · intro b hb
      simp only [List.mem_singleton] at hb
      subst hb
      exact ⟨⟨(let content := joinAll ((o conv).chunks.filter (fun c => c ≠ []));
          if content = [] then none else some content), (o conv).toolCalls⟩,
        ps, succ, hnil, hlen, by rw [← entryEq]⟩
  intro fuel
  induction fuel with
  | zero =>
      intro conv ft summ lc
      rw [runChatWithMcpToolsStreamingAux]
      split
      · rename_i hnil
        refine ⟨[], [streamAssistantEntry (o conv)], by simp, by simp, Or.inr
          ⟨⟨(let content := joinAll ((o conv).chunks.filter (fun c => c ≠ []));
              if content = [] then none else some content), (o conv).toolCalls⟩,
            hnil, by rw [← entryEq]⟩⟩
      · rename_i hnil
        split
        · exact capCase conv hnil
        · exact capCase conv hnil
  | succ n ih =>
      intro conv ft summ lc
      rw [runChatWithMcpToolsStreamingAux]
      split
      · rename_i hnil
        refine ⟨[], [streamAssistantEntry (o conv)], by simp, by simp, Or.inr
          ⟨⟨(let content := joinAll ((o conv).chunks.filter (fun c => c ≠ []));
              if content = [] then none else some content), (o conv).toolCalls⟩,
            hnil, by rw [← entryEq]⟩⟩
      · rename_i hnil
        split
        · exact capCase conv hnil
        · obtain ⟨ps, succ, hlen, heq⟩ := roundAppendStreaming_shape tg ct su conv (o conv)
          obtain ⟨blocks, tail, hconv, hblocks, htail⟩ :=
            ih (roundAppendStreaming tg ct su conv (o conv)).2.1
              (ft ++ joinAll ((o conv).chunks.filter (fun c => c ≠ [])))
              (summ ++ (roundAppendStreaming tg ct su conv (o conv)).2.2.2) (lc + 1)
          refine ⟨(streamAssistantEntry (o conv)
              :: (List.zipWith toolMsg (o conv).toolCalls ps ++ [nudgeMsg succ])) :: blocks,
            tail, ?_, ?_, htail⟩
          · show (runChatWithMcpToolsStreamingAux o tg ct su n
                (roundAppendStreaming tg ct su conv (o conv)).2.1
                (ft ++ joinAll ((o conv).chunks.filter (fun c => c ≠ [])))
                (summ ++ (roundAppendStreaming tg ct su conv (o conv)).2.2.2)
                (lc + 1)).conversation = _
            rw [hconv, heq]
            simp [List.append_assoc]
          · intro b hb
            rcases List.mem_cons.mp hb with h | h
            · subst h
              exact ⟨⟨(let content := joinAll ((o conv).chunks.filter (fun c => c ≠ []));
                  if content = [] then none else some content), (o conv).toolCalls⟩,
                ps, succ, hnil, hlen, by rw [← entryEq]⟩
            · exact hblocks b h

theorem wf_append (conv b : List Msg) (h : WfToolHistory conv)
    (hb : ∀ pre m post, b = pre ++ m :: post → m.role = toolRole →
      ∃ am, am ∈ pre ∧ am.role = assistantRole
        ∧ ∃ c, c ∈ am.toolCalls ∧ m.toolCallId = some c.id) :
    WfToolHistory (conv ++ b) := by
  intro pre m post hsplit hrole
  rcases List.append_eq_append_iff.mp hsplit with ⟨a2, hpre, hbd⟩ | ⟨c2, hconv, hd⟩
  · obtain ⟨am, ham, hrole2, c, hc, hid⟩ := hb a2 m post hbd hrole
    exact ⟨am, by rw [hpre]; exact List.mem_append_right conv ham, hrole2, c, hc, hid⟩
  · cases c2 with
    | nil =>
        obtain ⟨am, ham, hrole2, c, hc, hid⟩ := hb [] m post (by simpa using hd.symm) hrole
        simp at ham
    | cons x c3 =>
        have hx : m = x ∧ post = c3 ++ b := by
          constructor
          · exact (List.cons.injEq _ _ _ _ ▸ hd).1
          · exact (List.cons.injEq _ _ _ _ ▸ hd).2
        obtain ⟨am, ham, hrole2, c, hc, hid⟩ := h pre m c3 (by rw [hconv, hx.1]) hrole
        exact ⟨am, ham, hrole2, c, hc, hid⟩

theorem roundBlock_decomp (b : List Msg) (hb : RoundBlock b) :
    ∀ pre m post, b = pre ++ m :: post → m.role = toolRole →
      ∃ am, am ∈ pre ∧ am.role = assistantRole
        ∧ ∃ c, c ∈ am.toolCalls ∧ m.toolCallId = some c.id := by
  obtain ⟨a, ps, succ, hne, hlen, hbe⟩ := hb
  subst hbe
  intro pre m post hsplit hrole
  cases pre with
  | nil =>
      have hm : m = assistantMsgOf a := by
        have := (List.cons.injEq _ _ _ _ ▸ hsplit).1
        exact this.symm
      rw [hm] at hrole
      exact absurd (show assistantRole = toolRole from hrole) (by decide)
  | cons x pre2 =>
      have hx : assistantMsgOf a = x
          ∧ List.zipWith toolMsg a.toolCalls ps ++ [nudgeMsg succ] = pre2 ++ m :: post := by
        constructor
        · exact (List.cons.injEq _ _ _ _ ▸ hsplit).1
        · exact (List.cons.injEq _ _ _ _ ▸ hsplit).2
      have hmem : m ∈ List.zipWith toolMsg a.toolCalls ps ++ [nudgeMsg succ] := by
        rw [hx.2]; simp
      rcases List.mem_append.mp hmem with hzw | hnudge
      · obtain ⟨c, p, hc, hp, hm⟩ := mem_zipWith toolMsg a.toolCalls ps m hzw
        refine ⟨assistantMsgOf a, ?_, rfl, c, hc, ?_⟩
        · rw [hx.1]; exact List.mem_cons_self _ _
        · rw [hm]; rfl
      · simp only [List.mem_singleton] at hnudge
        rw [hnudge] at hrole
        exact absurd (show systemRole = toolRole from hrole) (by decide)

theorem finalTail_decomp (t : List Msg) (ht : FinalTail t) :
    ∀ pre m post, t = pre ++ m :: post → m.role = toolRole →
      ∃ am, am ∈ pre ∧ am.role = assistantRole
        ∧ ∃ c, c ∈ am.toolCalls ∧ m.toolCallId = some c.id := by
  intro pre m post hsplit hrole
  rcases ht with h0 | ⟨a, hnil, ha⟩
  · rw [h0] at hsplit
    exact absurd hsplit.symm (by simp)
  · rw [ha] at hsplit
    cases pre with
    | nil =>
        have hm : m = assistantMsgOf a := by
          have := (List.cons.injEq _ _ _ _ ▸ hsplit).1
          exact this.symm
        rw [hm] at hrole
        exact absurd (show assistantRole = toolRole from hrole) (by decide)
    | cons x pre2 =>
        have : ([] : List Msg) = pre2 ++ m :: post := (List.cons.injEq _ _ _ _ ▸ hsplit).2
        exact absurd this.symm (by simp)

theorem wf_append_blocks (blocks : List (List Msg)) :
    ∀ conv, WfToolHistory conv → (∀ b ∈ blocks, RoundBlock b) →
      WfToolHistory (conv ++ blocks.flatten) := by
  induction blocks with
  | nil => intro conv h _; simpa using h
  | cons b bs ih =>
      intro conv h hblocks
      rw [List.flatten_cons, ← List.append_assoc]
      exact ih (conv ++ b)
        (wf_append conv b h (roundBlock_decomp b (hblocks b (by simp))))
        (fun b2 hb2 => hblocks b2 (by simp [hb2]))

theorem wf_full (conv : List Msg) (blocks : List (List Msg)) (tail : List Msg)
    (h : WfToolHistory conv) (hblocks : ∀ b ∈ blocks, RoundBlock b) (htail : FinalTail tail) :
    WfToolHistory (conv ++ blocks.flatten ++ tail) :=
  wf_append (conv ++ blocks.flatten) tail (wf_append_blocks blocks conv h hblocks)
    (finalTail_decomp tail htail)

theorem wfToolHistory_nil : WfToolHistory [] := by
  intro pre m post h hrole
  exact absurd h.symm (by simp)

/-- Claim C5: in every conversation produced by an orchestration-loop run
(buffered or streaming), each tool message's `tool_call_id` matches a
`tool_call_id` emitted in a strictly earlier assistant message (provided the
seed conversation already satisfied this); moreover the run appends whole
round blocks: the assistant entry first (even with null content), then its
tool results in tool-call order, then the nudge, ending with either nothing
(cap) or a final assistant message with no tool calls. -/
theorem conversationRoundStructure (oracle : List Msg → AssistantOut)
    (oracleS : List Msg → StreamRound) (tagsOf : Str → List Str)
    (callTool : Str → Str → Str) (isSuccess : Str → Bool) (conv : List Msg)
    (ft : Str) (summ : List (Str × Str × Str)) (lc : Nat) :
    (WfToolHistory conv →
      WfToolHistory (runChatWithMcpTools oracle tagsOf callTool isSuccess conv summ lc).conversation
      ∧ WfToolHistory (runChatWithMcpToolsStreaming oracleS tagsOf callTool isSuccess
          conv ft summ lc).conversation)
    ∧ (∃ (blocks : List (List Msg)) (tail : List Msg),
        (runChatWithMcpTools oracle tagsOf callTool isSuccess conv summ lc).conversation
            = conv ++ blocks.flatten ++ tail
          ∧ (∀ b ∈ blocks, RoundBlock b) ∧ FinalTail tail)
    ∧ (∃ (blocks : List (List Msg)) (tail : List Msg),
        (runChatWithMcpToolsStreaming oracleS tagsOf callTool isSuccess
            conv ft summ lc).conversation
            = conv ++ blocks.flatten ++ tail
          ∧ (∀ b ∈ blocks, RoundBlock b) ∧ FinalTail tail) := by
  refine ⟨?_, ?_, ?_⟩
  · intro h
    constructor
    · obtain ⟨blocks, tail, hconv, hblocks, htail⟩ :=
        runChatAux_structure oracle tagsOf callTool isSuccess (maxToolLoops - lc) conv summ lc
      rw [runChatWithMcpTools, hconv]
      exact wf_full conv blocks tail h hblocks htail
    · obtain ⟨blocks, tail, hconv, hblocks, htail⟩ :=
        runStreamAux_structure oracleS tagsOf callTool isSuccess (maxToolLoops - lc)
          conv ft summ lc
      rw [runChatWithMcpToolsStreaming, hconv]
      exact wf_full conv blocks tail h hblocks htail
  · exact runChatAux_structure oracle tagsOf callTool isSuccess (maxToolLoops - lc) conv summ lc
  · exact runStreamAux_structure oracleS tagsOf callTool isSuccess (maxToolLoops - lc)
      conv ft summ lc

/-- Witness for C5: concrete runs from the empty (trivially well-formed)
conversation stay well-formed. -/
theorem conversationRoundStructure_witness :
    WfToolHistory (runChatWithMcpTools alwaysToolOracle noTags emptyCallTool falseSuccess
        [] [] 0).conversation
    ∧ WfToolHistory (runChatWithMcpToolsStreaming alwaysToolStreamOracle noTags emptyCallTool
        falseSuccess [] [] [] 0).conversation :=
  (conversationRoundStructure alwaysToolOracle alwaysToolStreamOracle noTags emptyCallTool
    falseSuccess [] [] [] 0).1 wfToolHistory_nil

theorem splitNlR_no_newline (t : Str) (h : '\n' ∉ t) : splitNlR t = ([], t) := by
  induction t with
  | nil => rfl
  | cons c cs ih =>
      have hc : ¬ c = '\n' := by
        intro he
        exact h (by simp [he])
      have ih2 := ih (fun hm => h (List.mem_cons_of_mem _ hm))
      simp [splitNlR, ih2, hc]

theorem splitNlR_append_no_newline (s t : Str) (h : '\n' ∉ t) :
    splitNlR (s ++ t) = ((splitNlR s).1, (splitNlR s).2 ++ t) := by
  induction s with
  | nil => simp [splitNlR, splitNlR_no_newline t h]
  | cons c cs ih =>
      by_cases hc : c = '\n'
      · subst hc
        simp [splitNlR, ih]
      · simp only [List.cons_append, splitNlR, if_neg hc, List.append_eq]
        rw [ih]
        cases h2 : (splitNlR cs).1 with
        | nil => simp [splitNlR, hc, h2]
        | cons l ls => simp [splitNlR, hc, h2]

theorem splitNlR_fst_nil (b : Str) (h : (splitNlR b).1 = []) : (splitNlR b).2 = b := by
  induction b with
  | nil => rfl
  | cons c cs ih =>
      by_cases hc : c = '\n'
      · subst hc
        simp [splitNlR] at h
      · simp only [splitNlR, if_neg hc] at h ⊢
        cases h2 : (splitNlR cs).1 with
        | nil =>
            simp only [h2]
            simp [ih (by simp [h2])]
        | cons l ls => simp [h2] at h

theorem joinNl_append_singleton : ∀ (xs : List Str) (y : Str), ∃ z, joinNl (xs ++ [y]) = z ++ y := by
  intro xs
  induction xs with
  | nil => intro y; exact ⟨[], rfl⟩
  | cons x xs ih =>
      intro y
      obtain ⟨z, hz⟩ := ih y
      cases xs with
      | nil => exact ⟨x ++ ['\n'], by simp [joinNl]⟩
      | cons x2 xs2 =>
          refine ⟨x ++ '\n' :: z, ?_⟩
          have hstep : joinNl ((x :: x2 :: xs2) ++ [y])
              = x ++ '\n' :: joinNl ((x2 :: xs2) ++ [y]) := rfl
          rw [hstep, hz]
          simp

theorem suffix_joinNl_parts (xs ys : List Str) (x : Str) :
    x <:+ joinNl (xs ++ ys ++ [x]) := by
  obtain ⟨z, hz⟩ := joinNl_append_singleton (xs ++ ys) x
  rw [hz]
  exact List.suffix_append z x

theorem extract_remainder_suffix (buffer : Str) :
    (splitNlR buffer).2 <:+ (extractSpeakSegments buffer).2 := by
  by_cases hb : buffer = []
  · subst hb
    simp [extractSpeakSegments, splitNlR]
  · simp only [extractSpeakSegments, if_neg hb]
    cases h1 : (splitNlR buffer).1 with
    | nil =>
        rw [if_pos rfl, splitNlR_fst_nil buffer h1]
    | cons l ls =>
        rw [if_neg (List.cons_ne_nil l ls)]
        exact suffix_joinNl_parts _ _ _

/-- Claim C7: the list block `"1. Buy milk\n2. Walk dog\n\n"` yields exactly
one segment containing both items; and for every buffer, content after the
final newline is never emitted in a segment (appending newline-free text
leaves the emitted segments unchanged) and is always carried back as a suffix
of the returned remainder. -/
theorem listBlockAndTailHoldback :
    extractSpeakSegments (("1. Buy milk\n2. Walk dog\n\n").toList)
        = ([("- Buy milk\n- Walk dog").toList], [])
      ∧ ∀ (s t : Str), '\n' ∉ t →
          (extractSpeakSegments (s ++ t)).1 = (extractSpeakSegments s).1
            ∧ t <:+ (extractSpeakSegments (s ++ t)).2 := by
  constructor
  · decide
  · intro s t h
    constructor
    · by_cases hst : s ++ t = []
      · have hs : s = [] := (List.append_eq_nil.mp hst).1
        have ht : t = [] := (List.append_eq_nil.mp hst).2
        subst hs; subst ht
        rfl
      · have hsplit := splitNlR_append_no_newline s t h
        by_cases hs0 : s = []
        · subst hs0
          have ht0 : t ≠ [] := by simpa using hst
          have he : extractSpeakSegments t = ([], t) := by
            simp [extractSpeakSegments, ht0, splitNlR_no_newline t h]
          simp only [List.nil_append, he]
          rfl
        · cases h1 : (splitNlR s).1 with
          | nil =>
              have e1 : extractSpeakSegments (s ++ t) = ([], s ++ t) := by
                simp [extractSpeakSegments, hst, hsplit, h1]
              have e2 : extractSpeakSegments s = ([], s) := by
                simp [extractSpeakSegments, hs0, h1]
              rw [e1, e2]
          | cons l ls =>
              have e1 : (extractSpeakSegments (s ++ t)).1
                  = (List.foldl processLine ⟨[], [], [], false⟩ (l :: ls)).segs := by
                simp [extractSpeakSegments, hst, hsplit, h1]
              have e2 : (extractSpeakSegments s).1
                  = (List.foldl processLine ⟨[], [], [], false⟩ (l :: ls)).segs := by
                simp [extractSpeakSegments, hs0, h1]
              rw [e1, e2]
    · have hsplit := splitNlR_append_no_newline s t h
      have h2 : t <:+ (splitNlR (s ++ t)).2 := by
        rw [hsplit]
        exact List.suffix_append _ t
      exact h2.trans (extract_remainder_suffix (s ++ t))

/-- Witness for C7 at a concrete split of a list block whose second item is
still growing (held back in the remainder). -/
theorem listBlockAndTailHoldback_witness :
    ('\n' ∉ (("2. Walk do").toList))
      ∧ ((extractSpeakSegments ((("1. Buy milk\n").toList) ++ (("2. Walk do").toList))).1
            = (extractSpeakSegments (("1. Buy milk\n").toList)).1
        ∧ (("2. Walk do").toList) <:+ (extractSpeakSegments ((("1. Buy milk\n").toList)
            ++ (("2. Walk do").toList))).2) :=
  ⟨by decide, listBlockAndTailHoldback.2 (("1. Buy milk\n").toList) (("2. Walk do").toList)
      (by decide)⟩

theorem dropWhile_head?_false {α : Type} (p : α → Bool) (l : List α) :
    ∀ c, (l.dropWhile p).head? = some c → p c = false := by
  induction l with
  | nil => intro c hc; simp at hc
  | cons a l ih =>
      intro c hc
      rw [List.dropWhile_cons] at hc
      by_cases hp : p a = true
      · rw [if_pos hp] at hc
        exact ih c hc
      · rw [if_neg hp] at hc
        simp at hc
        subst hc
        simpa using hp

theorem dropWhile_eq_self_of_head? {α : Type} (p : α → Bool) (l : List α)
    (h : ∀ c, l.head? = some c → p c = false) : l.dropWhile p = l := by
  cases l with
  | nil => rfl
  | cons a l =>
      rw [List.dropWhile_cons, if_neg]
      simp [h a (by simp)]

theorem head?_false_of_dropWhile_eq_self {α : Type} (p : α → Bool) (l : List α)
    (h : l.dropWhile p = l) : ∀ c, l.head? = some c → p c = false := by
  cases l with
  | nil => intro c hc; simp at hc
  | cons a l =>
      intro c hc
      simp at hc
      subst hc
      rw [List.dropWhile_cons] at h
      by_cases hp : p a = true
      · rw [if_pos hp] at h
        have hlen := (List.dropWhile_suffix (l := l) p).sublist.length_le
        have := congrArg List.length h
        simp at this
        omega
      · simpa using hp

theorem dropWhile_idem {α : Type} (p : α → Bool) (l : List α) :
    (l.dropWhile p).dropWhile p = l.dropWhile p := by
  apply dropWhile_eq_self_of_head?
  intro c hc
  exact dropWhile_head?_false p l c hc

theorem pyRstrip_eq_iff (l : Str) :
    pyRstrip l = l ↔ l.reverse.dropWhile isSpacePy = l.reverse := by
  unfold pyRstrip
  constructor
  · intro h
    have := congrArg List.reverse h
    simpa using this
  · intro h
    rw [h, List.reverse_reverse]

theorem pyRstrip_idem (l : Str) : pyRstrip (pyRstrip l) = pyRstrip l := by
  unfold pyRstrip
  rw [List.reverse_reverse, dropWhile_idem]

theorem pyLstrip_idem (l : Str) : pyLstrip (pyLstrip l) = pyLstrip l :=
  dropWhile_idem isSpacePy l

theorem pyRstrip_prefix (g : Str) : pyRstrip g <+: g := by
  have h := List.reverse_prefix.mpr (List.dropWhile_suffix (l := g.reverse) isSpacePy)
  rwa [List.reverse_reverse] at h

theorem pyRstrip_eq_nil_iff (l : Str) :
    pyRstrip l = [] ↔ ∀ c ∈ l, isSpacePy c = true := by
  unfold pyRstrip
  rw [List.reverse_eq_nil_iff, List.dropWhile_eq_nil_iff]
  constructor
  · intro h c hc
    exact h c (List.mem_reverse.mpr hc)
  · intro h c hc
    exact h c (List.mem_reverse.mp hc)

theorem pyRstrip_pyLstrip (x : Str) (hx : pyRstrip x = x) :
    pyRstrip (pyLstrip x) = pyLstrip x := by
  cases hcase : (x.dropWhile isSpacePy).reverse with
  | nil =>
      have hnil : pyLstrip x = [] := by
        rw [← List.reverse_eq_nil_iff]
        exact hcase
      rw [hnil]
      rfl
  | cons c w =>
      rw [pyRstrip_eq_iff]
      show (x.dropWhile isSpacePy).reverse.dropWhile isSpacePy
        = (x.dropWhile isSpacePy).reverse
      rw [hcase]
      apply dropWhile_eq_self_of_head?
      intro c0 hc0
      simp at hc0
      rw [← hc0]
      obtain ⟨u, hu⟩ := List.dropWhile_suffix (l := x) isSpacePy
      have hxrev : x.reverse = c :: (w ++ u.reverse) := by
        rw [← hu, List.reverse_append, hcase]
        simp
      have hdw : x.reverse.dropWhile isSpacePy = x.reverse := (pyRstrip_eq_iff x).mp hx
      exact head?_false_of_dropWhile_eq_self isSpacePy x.reverse hdw c
        (by rw [hxrev]; simp)

theorem pyStrip_idem (x : Str) : pyStrip (pyStrip x) = pyStrip x := by
  unfold pyStrip
  rw [pyRstrip_pyLstrip (pyRstrip x) (pyRstrip_idem x), pyLstrip_idem]

theorem pyStrip_fixed_parts (x : Str) (h : pyStrip x = x) :
    pyRstrip x = x ∧ pyLstrip x = x := by
  have h1 : pyRstrip x = x := by
    have hsub := (List.dropWhile_suffix (l := x.reverse) isSpacePy).sublist
    have e1 : (pyRstrip x).length = (x.reverse.dropWhile isSpacePy).length := by
      unfold pyRstrip
      rw [List.length_reverse]
    have e2 : (pyStrip x).length ≤ (pyRstrip x).length :=
      (List.dropWhile_suffix isSpacePy).sublist.length_le
    have e3 : (pyStrip x).length = x.length := by rw [h]
    have e4 : (x.reverse.dropWhile isSpacePy).length ≤ x.reverse.length := hsub.length_le
    have e5 : x.reverse.length = x.length := by simp
    have hx2 : (x.reverse.dropWhile isSpacePy).length = x.reverse.length := by omega
    have h6 := hsub.eq_of_length hx2
    rw [pyRstrip_eq_iff]
    exact h6
  refine ⟨h1, ?_⟩
  unfold pyStrip at h
  rwa [h1] at h

theorem mem_pyRstrip (l : Str) (c : Char) (h : c ∈ pyRstrip l) : c ∈ l := by
  unfold pyRstrip at h
  rw [List.mem_reverse] at h
  exact List.mem_reverse.mp ((List.dropWhile_suffix isSpacePy).sublist.subset h)

theorem mem_pyLstrip (l : Str) (c : Char) (h : c ∈ pyLstrip l) : c ∈ l :=
  (List.dropWhile_suffix isSpacePy).sublist.subset h

theorem mem_pyStrip (l : Str) (c : Char) (h : c ∈ pyStrip l) : c ∈ l :=
  mem_pyRstrip l c (mem_pyLstrip _ c h)

theorem pyLstrip_cons_of_not (c : Char) (g : Str) (hs : isSpacePy c = false) :
    pyLstrip (c :: g) = c :: g := by
  simp [pyLstrip, List.dropWhile_cons, hs]

theorem pyStrip_cons_ne_nil (c : Char) (g : Str) (hs : isSpacePy c = false) :
    pyStrip (c :: g) ≠ [] := by
  have hrne : pyRstrip (c :: g) ≠ [] := by
    rw [Ne, pyRstrip_eq_nil_iff]
    intro hall
    have := hall c (by simp)
    rw [this] at hs
    exact Bool.noConfusion hs
  obtain ⟨u, hu⟩ := pyRstrip_prefix (c :: g)
  cases hr : pyRstrip (c :: g) with
  | nil => exact absurd hr hrne
  | cons d w =>
      rw [hr] at hu
      have hd : d = c := by
        have := hu
        simp at this
        exact this.1
      unfold pyStrip
      rw [hr, hd, pyLstrip_cons_of_not c w hs]
      simp

theorem pyRstrip_append_fixed (A l : Str) (hl : pyRstrip l = l) (hne : l ≠ []) :
    pyRstrip (A ++ l) = A ++ l := by
  cases hc : l.reverse with
  | nil => exact absurd (by rwa [← List.reverse_eq_nil_iff]) hne
  | cons c w =>
      have hdw : l.reverse.dropWhile isSpacePy = l.reverse := (pyRstrip_eq_iff l).mp hl
      have hpc := head?_false_of_dropWhile_eq_self isSpacePy l.reverse hdw c
        (by rw [hc]; simp)
      rw [pyRstrip_eq_iff, List.reverse_append, hc]
      rw [List.cons_append, List.dropWhile_cons, if_neg (by simp [hpc])]

theorem char_ofNat_digit (n : Nat) : isDigitChar (Char.ofNat (48 + n % 10)) = true := by
  have h10 : n % 10 = 0 ∨ n % 10 = 1 ∨ n % 10 = 2 ∨ n % 10 = 3 ∨ n % 10 = 4 ∨ n % 10 = 5
      ∨ n % 10 = 6 ∨ n % 10 = 7 ∨ n % 10 = 8 ∨ n % 10 = 9 := by omega
  rcases h10 with h|h|h|h|h|h|h|h|h|h <;> rw [h] <;> decide

theorem digit_not_marker (c : Char) (h : isDigitChar c = true) :
    (c = '-' || c = '*' || c = '•') = false := by
  simp only [isDigitChar, Bool.or_eq_true, decide_eq_true_eq, or_assoc] at h
  rcases h with h|h|h|h|h|h|h|h|h|h <;> subst h <;> decide

theorem digit_not_space (c : Char) (h : isDigitChar c = true) : isSpacePy c = false := by
  simp only [isDigitChar, Bool.or_eq_true, decide_eq_true_eq, or_assoc] at h
  rcases h with h|h|h|h|h|h|h|h|h|h <;> subst h <;> decide

theorem digit_ne_newline (c : Char) (h : isDigitChar c = true) : ¬ c = '\n' := by
  simp only [isDigitChar, Bool.or_eq_true, decide_eq_true_eq, or_assoc] at h
  rcases h with h|h|h|h|h|h|h|h|h|h <;> subst h <;> decide

theorem natToCharsCore_shape : ∀ (fuel n : Nat) (acc : List Char),
    ∃ D : List Char, D ≠ [] ∧ (∀ c ∈ D, isDigitChar c = true)
      ∧ natToCharsCore fuel n acc = D ++ acc := by
  intro fuel
  induction fuel with
  | zero =>
      intro n acc
      refine ⟨[Char.ofNat (48 + n % 10)], by simp, ?_, rfl⟩
      intro c hc
      simp at hc
      rw [hc]
      exact char_ofNat_digit n
  | succ f ih =>
      intro n acc
      by_cases h : n < 10
      · refine ⟨[Char.ofNat (48 + n % 10)], by simp, ?_, ?_⟩
        · intro c hc
          simp at hc
          rw [hc]
          exact char_ofNat_digit n
        · simp only [natToCharsCore, if_pos h]
          rfl
      · obtain ⟨D, hne, hdig, heq⟩ := ih (n / 10) (Char.ofNat (48 + n % 10) :: acc)
        refine ⟨D ++ [Char.ofNat (48 + n % 10)], by simp, ?_, ?_⟩
        · intro c hc
          rcases List.mem_append.mp hc with h2 | h2
          · exact hdig c h2
          · simp at h2
            rw [h2]
            exact char_ofNat_digit n
        · simp only [natToCharsCore, if_neg h]
          rw [heq]
          simp

theorem natToChars_shape (n : Nat) :
    natToChars n ≠ [] ∧ ∀ c ∈ natToChars n, isDigitChar c = true := by
  obtain ⟨D, hne, hdig, heq⟩ := natToCharsCore_shape n n []
  unfold natToChars
  rw [heq, List.append_nil]
  exact ⟨hne, hdig⟩

theorem dropWhile_append_all {α : Type} (p : α → Bool) :
    ∀ (A : List α) (b : α) (r : List α), (∀ a ∈ A, p a = true) → p b = false →
      (A ++ b :: r).dropWhile p = b :: r := by
  intro A
  induction A with
  | nil =>
      intro b r _ hb
      rw [List.nil_append, List.dropWhile_cons, if_neg (by simp [hb])]
  | cons a A ih =>
      intro b r hA hb
      rw [List.cons_append, List.dropWhile_cons, if_pos (hA a (by simp))]
      exact ih b r (fun x hx => hA x (by simp [hx])) hb

theorem parse_renumber (k : Nat) (it : Str) (hit : pyLstrip it = it) :
    parseListItem (natToChars k ++ '.' :: ' ' :: it) = some it := by
  obtain ⟨hne, hdig⟩ := natToChars_shape k
  cases hD : natToChars k with
  | nil => exact absurd hD hne
  | cons d D2 =>
      have hd : isDigitChar d = true := hdig d (by rw [hD]; simp)
      have hds : isSpacePy d = false := digit_not_space d hd
      have h1 : ((d :: D2) ++ '.' :: ' ' :: it).dropWhile isSpacePy
          = d :: (D2 ++ '.' :: ' ' :: it) := by
        rw [List.cons_append, List.dropWhile_cons, if_neg (by simp [hds])]
      have h2 : (d :: (D2 ++ '.' :: ' ' :: it)).dropWhile isDigitChar = '.' :: ' ' :: it := by
        rw [← List.cons_append]
        exact dropWhile_append_all isDigitChar (d :: D2) '.' (' ' :: it)
          (fun a ha => hdig a (by rw [hD]; exact ha)) (by decide)
      have hit2 : it.dropWhile isSpacePy = it := hit
      simp only [parseListItem, h1, h2, digit_not_marker d hd, hd]
      simp [hit2, isSpacePy]

theorem flushText_true_fields (st : SegSt) :
    (flushText true st).text = [] ∧ (flushText true st).items = st.items
      ∧ (flushText true st).inList = st.inList := by
  unfold flushText
  split_ifs <;> simp_all
  split_ifs <;> simp

theorem flushList_true_fields (st : SegSt) :
    (flushList true st).items = [] ∧ (flushList true st).inList = false
      ∧ (flushList true st).text = st.text := by
  unfold flushList
  split_ifs with h1 <;> simp_all

theorem stripSegs_update (x : SegSt) (v : List Str) :
    stripSegs { x with segs := v } = stripSegs x := rfl

theorem segs_update (x : SegSt) (v : List Str) : ({ x with segs := v } : SegSt).segs = v := rfl

theorem pendingLines_update (x : SegSt) (v : List Str) :
    pendingLines { x with segs := v } = pendingLines x := rfl

theorem flushText_shift (b : Bool) (st : SegSt) :
    flushText b st = { flushText b (stripSegs st) with
      segs := st.segs ++ (flushText b (stripSegs st)).segs } := by
  unfold flushText stripSegs
  dsimp only
  split_ifs <;> simp

theorem flushList_shift (b : Bool) (st : SegSt) :
    flushList b st = { flushList b (stripSegs st) with
      segs := st.segs ++ (flushList b (stripSegs st)).segs } := by
  unfold flushList stripSegs
  dsimp only
  split_ifs <;> simp

theorem shift_comp {f g : SegSt → SegSt}
    (hf : ∀ s, f s = { f (stripSegs s) with segs := s.segs ++ (f (stripSegs s)).segs })
    (hg : ∀ s, g s = { g (stripSegs s) with segs := s.segs ++ (g (stripSegs s)).segs })
    (s : SegSt) :
    f (g s) = { f (g (stripSegs s)) with segs := s.segs ++ (f (g (stripSegs s))).segs } := by
  conv_lhs => rw [hg s, hf]
  conv_rhs => rw [hf (g (stripSegs s))]
  rw [stripSegs_update, segs_update]
  dsimp only
  rw [List.append_assoc]

theorem id_shift (s : SegSt) :
    s = { stripSegs s with segs := s.segs ++ (stripSegs s).segs } := by
  cases s; simp [stripSegs]

theorem appendText_shift (r : Str) (s : SegSt) :
    ({ s with text := s.text ++ [r] } : SegSt)
      = { ({ stripSegs s with text := (stripSegs s).text ++ [r] } : SegSt) with
          segs := s.segs ++ ({ stripSegs s with text := (stripSegs s).text ++ [r] } : SegSt).segs } := by
  cases s; simp [stripSegs]

theorem listUpd_shift (v : Str) (s : SegSt) :
    ({ s with inList := true, items := s.items ++ [v] } : SegSt)
      = { ({ stripSegs s with inList := true, items := (stripSegs s).items ++ [v] } : SegSt) with
          segs := s.segs ++ ({ stripSegs s with inList := true, items := (stripSegs s).items ++ [v] } : SegSt).segs } := by
  cases s; simp [stripSegs]

theorem maybeFlushList_shift (s : SegSt) :
    (if s.inList then flushList true s else s)
      = { (if (stripSegs s).inList then flushList true (stripSegs s) else stripSegs s) with
          segs := s.segs
            ++ (if (stripSegs s).inList then flushList true (stripSegs s) else stripSegs s).segs } := by
  have h : (stripSegs s).inList = s.inList := rfl
  rw [h]
  by_cases hin : s.inList = true
  · simp only [hin, eq_self_iff_true, if_true]
    exact flushList_shift true s
  · simp only [Bool.not_eq_true] at hin
    simp only [hin, Bool.false_eq_true, if_false]
    exact id_shift s

theorem processLine_shift (st : SegSt) (l : Str) :
    processLine st l = { processLine (stripSegs st) l with
      segs := st.segs ++ (processLine (stripSegs st) l).segs } := by
  unfold processLine
  by_cases hb : pyStrip (pyRstrip l) = []
  · simp only [if_pos hb]
    exact shift_comp (flushText_shift true) (flushList_shift true) st
  · simp only [if_neg hb]
    cases hp : parseListItem (pyRstrip l) with
    | some g =>
        exact @shift_comp
          (fun s1 => { s1 with inList := true, items := s1.items ++ [pyStrip g] })
          (flushText true) (listUpd_shift (pyStrip g)) (flushText_shift true) st
    | none =>
        by_cases hpunct : endsWithAny (pyStrip (pyRstrip l)) ['.', '!', '?'] = true
        · simp only [if_pos hpunct]
          exact @shift_comp (flushText false)
            (fun s => { (if s.inList then flushList true s else s) with
              text := (if s.inList then flushList true s else s).text ++ [pyRstrip l] })
            (flushText_shift false)
            (@shift_comp (fun s1 => { s1 with text := s1.text ++ [pyRstrip l] })
              (fun s => if s.inList then flushList true s else s)
              (appendText_shift (pyRstrip l)) maybeFlushList_shift) st
        · simp only [if_neg hpunct]
          exact @shift_comp (fun s1 => { s1 with text := s1.text ++ [pyRstrip l] })
            (fun s => if s.inList then flushList true s else s)
            (appendText_shift (pyRstrip l)) maybeFlushList_shift st

theorem foldl_shift : ∀ (L : List Str) (st : SegSt),
    List.foldl processLine st L = { List.foldl processLine (stripSegs st) L with
      segs := st.segs ++ (List.foldl processLine (stripSegs st) L).segs } := by
  intro L
  induction L with
  | nil =>
      intro st
      simp only [List.foldl_nil]
      cases st
      simp [stripSegs]
  | cons l L ih =>
      intro st
      rw [List.foldl_cons, List.foldl_cons, ih (processLine st l),
        processLine_shift st l, stripSegs_update, segs_update, ih (processLine (stripSegs st) l)]
      simp [stripSegs_update, segs_update, List.append_assoc]

theorem all_space_suffix_false (x w : Str) (hx : pyRstrip x = x) (hw : w <:+ x)
    (hne : w ≠ []) (hall : ∀ c ∈ w, isSpacePy c = true) : False := by
  obtain ⟨u, rfl⟩ := hw
  have h1 : pyRstrip (u ++ w) = (u.reverse.dropWhile isSpacePy).reverse := by
    unfold pyRstrip
    rw [List.reverse_append, List.dropWhile_append]
    have h2 : w.reverse.dropWhile isSpacePy = [] := by
      rw [List.dropWhile_eq_nil_iff]
      intro c hc
      exact hall c (List.mem_reverse.mp hc)
    rw [h2]
    simp
  have hlen := congrArg List.length (hx.symm.trans h1)
  simp only [List.length_append, List.length_reverse] at hlen
  have hle : (u.reverse.dropWhile isSpacePy).length ≤ u.reverse.length :=
    (List.dropWhile_suffix isSpacePy).sublist.length_le
  simp only [List.length_reverse] at hle
  have hwlen : 0 < w.length := List.length_pos.mpr hne
  omega

theorem parseListItem_shape (raw g : Str) (h : parseListItem raw = some g) :
    ∃ w, w ≠ [] ∧ w <:+ raw ∧ g = w.dropWhile isSpacePy := by
  unfold parseListItem at h
  cases hs : raw.dropWhile isSpacePy with
  | nil => rw [hs] at h; exact absurd h (by simp)
  | cons c rest =>
      rw [hs] at h
      dsimp only at h
      have hcr : c :: rest <:+ raw := by rw [← hs]; exact List.dropWhile_suffix isSpacePy
      split_ifs at h with h1 h2
      · cases rest with
        | nil => exact absurd h (by simp)
        | cons c2 r2 =>
            dsimp only at h
            split_ifs at h with h3
            injection h with h4
            exact ⟨c2 :: r2, by simp, (List.suffix_cons c (c2 :: r2)).trans hcr, h4.symm⟩
      · cases hd : (c :: rest).dropWhile isDigitChar with
        | nil => rw [hd] at h; exact absurd h (by simp)
        | cons p rest2 =>
            rw [hd] at h
            dsimp only at h
            split_ifs at h with h3
            cases rest2 with
            | nil => exact absurd h (by simp)
            | cons c3 r3 =>
                dsimp only at h
                split_ifs at h with h4
                injection h with h5
                have hsuf : p :: c3 :: r3 <:+ c :: rest := by
                  rw [← hd]; exact List.dropWhile_suffix isDigitChar
                exact ⟨c3 :: r3, by simp,
                  ((List.suffix_cons p (c3 :: r3)).trans hsuf).trans hcr, h5.symm⟩

theorem parseListItem_suffix (raw g : Str) (h : parseListItem raw = some g) : g <:+ raw := by
  obtain ⟨w, _, hwsuf, hg⟩ := parseListItem_shape raw g h
  rw [hg]
  exact (List.dropWhile_suffix isSpacePy).trans hwsuf

theorem parse_pendingItem (raw g : Str) (hr : pyRstrip raw = raw) (hnl : '\n' ∉ raw)
    (h : parseListItem raw = some g) : PendingItem (pyStrip g) := by
  obtain ⟨w, hwne, hwsuf, hg⟩ := parseListItem_shape raw g h
  have hgsuf : g <:+ raw := parseListItem_suffix raw g h
  refine ⟨?_, pyStrip_idem g, ?_⟩
  · cases hgc : g with
    | nil =>
        exfalso
        have hwnil : w.dropWhile isSpacePy = [] := by rw [← hg, hgc]
        have hall := List.dropWhile_eq_nil_iff.mp hwnil
        exact all_space_suffix_false raw w hr hwsuf hwne hall
    | cons c0 g' =>
        have hc0 : isSpacePy c0 = false := by
          apply dropWhile_head?_false isSpacePy w
          rw [← hg, hgc]
          rfl
        exact pyStrip_cons_ne_nil c0 g' hc0
  · intro hmem
    exact hnl (hgsuf.subset (mem_pyStrip g '\n' hmem))

theorem getLast?_suffix {α : Type} (v x : List α) (h : v <:+ x) (hne : v ≠ []) :
    x.getLast? = v.getLast? := by
  obtain ⟨u, rfl⟩ := h
  exact List.getLast?_append_of_ne_nil u hne

theorem mem_of_getLast?_eq {α : Type} (l : List α) (a : α) (h : l.getLast? = some a) :
    a ∈ l := by
  have hne := ne_nil_of_getLast?_eq_some h
  rw [List.getLast?_eq_getLast l hne] at h
  injection h with h2
  rw [← h2]
  exact List.getLast_mem hne

theorem pyStrip_getLast? (x : Str) (hx : pyRstrip x = x) (hne : pyStrip x ≠ []) :
    (pyStrip x).getLast? = x.getLast? := by
  have he : pyStrip x = pyLstrip x := by unfold pyStrip; rw [hx]
  rw [he] at hne ⊢
  exact (getLast?_suffix (pyLstrip x) x (List.dropWhile_suffix isSpacePy) hne).symm

theorem endsWith_joinNl_append (T : List Str) (raw : Str) (hr : pyRstrip raw = raw)
    (hne : pyStrip raw ≠ []) (h : endsWithAny (pyStrip raw) ['.', '!', '?'] = true) :
    endsWithAny (pyStrip (joinNl (T ++ [raw]))) ['.', '!', '?', ':'] = true := by
  obtain ⟨c, hc, hmem⟩ : ∃ c, (pyStrip raw).getLast? = some c
      ∧ (c = '.' ∨ c = '!' ∨ c = '?') := by
    unfold endsWithAny at h
    cases hg : (pyStrip raw).getLast? with
    | none => rw [hg] at h; exact absurd h (by simp)
    | some c =>
        rw [hg] at h
        exact ⟨c, rfl, by simpa using h⟩
  have hrawLast : raw.getLast? = some c := by
    rw [← pyStrip_getLast? raw hr hne]; exact hc
  have hrawne : raw ≠ [] := by
    intro h0; rw [h0] at hne; exact hne rfl
  obtain ⟨z, hz⟩ := joinNl_append_singleton T raw
  have hJr : pyRstrip (joinNl (T ++ [raw])) = joinNl (T ++ [raw]) := by
    rw [hz]; exact pyRstrip_append_fixed z raw hr hrawne
  have hJs : pyStrip (joinNl (T ++ [raw])) = pyLstrip (joinNl (T ++ [raw])) := by
    unfold pyStrip; rw [hJr]
  have hcs : isSpacePy c = false := by
    rcases hmem with h1 | h1 | h1 <;> subst h1 <;> decide
  have hJlast : (joinNl (T ++ [raw])).getLast? = some c := by
    rw [hz, List.getLast?_append_of_ne_nil z hrawne]; exact hrawLast
  have hJl : pyLstrip (joinNl (T ++ [raw])) ≠ [] := by
    intro h0
    have hall := List.dropWhile_eq_nil_iff.mp h0
    have hcmem : c ∈ joinNl (T ++ [raw]) := mem_of_getLast?_eq _ c hJlast
    exact absurd (hall c hcmem) (by simp [hcs])
  have hlast : (pyLstrip (joinNl (T ++ [raw]))).getLast? = some c := by
    rw [← getLast?_suffix (pyLstrip (joinNl (T ++ [raw]))) (joinNl (T ++ [raw]))
      (List.dropWhile_suffix isSpacePy) hJl]
    exact hJlast
  unfold endsWithAny
  rw [hJs, hlast]
  rcases hmem with h1 | h1 | h1 <;> subst h1 <;> rfl

theorem flushText_punct_fields (st : SegSt)
    (hcond : endsWithAny (pyStrip (joinNl st.text)) ['.', '!', '?', ':'] = true) :
    (flushText false st).text = [] ∧ (flushText false st).items = st.items
      ∧ (flushText false st).inList = st.inList := by
  unfold flushText
  dsimp only
  split_ifs with h1 h2 h3
  · exact ⟨h1, rfl, rfl⟩
  · exact ⟨rfl, rfl, rfl⟩
  · exact ⟨rfl, rfl, rfl⟩
  · exact absurd (by simp [hcond]) h3

theorem segInv_processLine (st : SegSt) (l : Str) (hst : SegInv st) (hnl : '\n' ∉ l) :
    SegInv (processLine st l) := by
  obtain ⟨hiff, hexcl, htext, hitems⟩ := hst
  have hrnl : '\n' ∉ pyRstrip l := fun hm => hnl (mem_pyRstrip l '\n' hm)
  unfold processLine
  by_cases hb : pyStrip (pyRstrip l) = []
  · simp only [if_pos hb]
    obtain ⟨hl1, hl2, hl3⟩ := flushList_true_fields st
    obtain ⟨ht1, ht2, ht3⟩ := flushText_true_fields (flushList true st)
    refine ⟨?_, ?_, ?_, ?_⟩
    · rw [ht3, hl2, ht2, hl1]; simp
    · intro hni; rw [ht2, hl1] at hni; exact absurd rfl hni
    · intro x hx; rw [ht1] at hx; exact absurd hx (List.not_mem_nil x)
    · intro x hx; rw [ht2, hl1] at hx; exact absurd hx (List.not_mem_nil x)
  · simp only [if_neg hb]
    cases hp : parseListItem (pyRstrip l) with
    | some g =>
        dsimp only
        obtain ⟨ht1, ht2, ht3⟩ := flushText_true_fields st
        have hpi : PendingItem (pyStrip g) :=
          parse_pendingItem (pyRstrip l) g (pyRstrip_idem l) hrnl hp
        refine ⟨by simp [ht2, ht3], by simp [ht1], by simp [ht1], ?_⟩
        intro it hit
        have hit2 : it ∈ st.items ++ [pyStrip g] := by simpa [ht2] using hit
        rcases List.mem_append.mp hit2 with hmem | hmem
        · exact hitems it hmem
        · rw [List.mem_singleton.mp hmem]; exact hpi
    | none =>
        dsimp only
        have h1 : (if st.inList then flushList true st else st).items = []
            ∧ (if st.inList then flushList true st else st).inList = false
            ∧ (if st.inList then flushList true st else st).text = st.text := by
          by_cases hin : st.inList = true
          · obtain ⟨a, b, c⟩ := flushList_true_fields st
            simp only [hin, eq_self_iff_true, if_true]
            exact ⟨a, b, c⟩
          · have hitnil : st.items = [] := by
              by_contra hne2
              exact hin (hiff.mpr hne2)
            simp only [Bool.not_eq_true] at hin
            simp only [hin, Bool.false_eq_true, if_false]
            exact ⟨hitnil, trivial, trivial⟩
        obtain ⟨h1i, h1l, h1t⟩ := h1
        by_cases hpunct : endsWithAny (pyStrip (pyRstrip l)) ['.', '!', '?'] = true
        · simp only [if_pos hpunct]
          have hcond : endsWithAny (pyStrip (joinNl
              (({ (if st.inList then flushList true st else st) with
                text := (if st.inList then flushList true st else st).text ++ [pyRstrip l] }
                  : SegSt).text))) ['.', '!', '?', ':'] = true := by
            dsimp only
            rw [h1t]
            exact endsWith_joinNl_append st.text (pyRstrip l) (pyRstrip_idem l) hb hpunct
          obtain ⟨hf1, hf2, hf3⟩ := flushText_punct_fields _ hcond
          refine ⟨?_, ?_, ?_, ?_⟩
          · rw [hf3, hf2]
            dsimp only
            rw [h1i, h1l]
            simp
          · intro hni
            rw [hf2] at hni
            dsimp only at hni
            rw [h1i] at hni
            exact absurd rfl hni
          · intro x hx; rw [hf1] at hx; exact absurd hx (List.not_mem_nil x)
          · intro it hit
            rw [hf2] at hit
            dsimp only at hit
            rw [h1i] at hit
            exact absurd hit (List.not_mem_nil it)
        · simp only [if_neg hpunct]
          refine ⟨?_, ?_, ?_, ?_⟩
          · dsimp only
            rw [h1i, h1l]
            simp
          · intro hni
            dsimp only at hni
            rw [h1i] at hni
            exact absurd rfl hni
          · intro x hx
            dsimp only at hx
            rw [h1t] at hx
            rcases List.mem_append.mp hx with hm | hm
            · exact htext x hm
            · rw [List.mem_singleton.mp hm]
              exact ⟨pyRstrip_idem l, hb, hp, by simpa using hpunct, hrnl⟩
          · intro it hit
            dsimp only at hit
            rw [h1i] at hit
            exact absurd hit (List.not_mem_nil it)

theorem segInv_init : SegInv ⟨[], [], [], false⟩ := by
  refine ⟨by simp, by simp, ?_, ?_⟩ <;> · intro x hx; exact absurd hx (List.not_mem_nil x)

theorem segInv_foldl : ∀ (L : List Str) (st : SegSt), SegInv st → (∀ l ∈ L, '\n' ∉ l) →
    SegInv (List.foldl processLine st L) := by
  intro L
  induction L with
  | nil => intro st h _; exact h
  | cons l L ih =>
      intro st h hL
      rw [List.foldl_cons]
      exact ih (processLine st l) (segInv_processLine st l h (hL l (by simp)))
        (fun x hx => hL x (List.mem_cons_of_mem l hx))

theorem snd_mem_enumFrom {α : Type} : ∀ (xs : List α) (n : Nat) (p : Nat × α),
    p ∈ xs.enumFrom n → p.2 ∈ xs := by
  intro xs
  induction xs with
  | nil => intro n p hp; simp [List.enumFrom] at hp
  | cons x xs ih =>
      intro n p hp
      rw [List.enumFrom_cons] at hp
      rcases List.mem_cons.mp hp with h | h
      · rw [h]; simp
      · exact List.mem_cons_of_mem x (ih (n + 1) p h)

theorem renumber_mem (items : List Str) (l : Str) (h : l ∈ renumber items) :
    ∃ k it, it ∈ items ∧ l = natToChars (k + 1) ++ '.' :: ' ' :: it := by
  unfold renumber at h
  obtain ⟨p, hp, hl⟩ := List.mem_map.mp h
  rw [List.enum_eq_enumFrom] at hp
  exact ⟨p.1, p.2, snd_mem_enumFrom items 0 p hp, hl.symm⟩

theorem renum_line_no_newline (k : Nat) (it : Str) (hit : '\n' ∉ it) :
    '\n' ∉ natToChars k ++ '.' :: ' ' :: it := by
  intro hm
  rcases List.mem_append.mp hm with h | h
  · obtain ⟨hne, hdig⟩ := natToChars_shape k
    exact digit_ne_newline '\n' (hdig '\n' h) rfl
  · rcases List.mem_cons.mp h with h1 | h1
    · exact absurd h1 (by decide)
    · rcases List.mem_cons.mp h1 with h2 | h2
      · exact absurd h2 (by decide)
      · exact hit h2

theorem pendingLines_no_newline (st : SegSt) (h : SegInv st) :
    ∀ l ∈ pendingLines st, '\n' ∉ l := by
  obtain ⟨hiff, hexcl, htext, hitems⟩ := h
  intro l hl
  unfold pendingLines at hl
  rcases List.mem_append.mp hl with hm | hm
  · by_cases hc : st.inList ∧ st.items ≠ []
    · rw [if_pos hc] at hm
      obtain ⟨k, it, hitm, rfl⟩ := renumber_mem st.items l hm
      exact renum_line_no_newline (k + 1) it (hitems it hitm).2.2
    · rw [if_neg hc] at hm
      exact absurd hm (List.not_mem_nil l)
  · exact (htext l hm).2.2.2.2

theorem splitNlR_no_newline_parts (b : Str) :
    (∀ l ∈ (splitNlR b).1, '\n' ∉ l) ∧ '\n' ∉ (splitNlR b).2 := by
  induction b with
  | nil => simp [splitNlR]
  | cons c cs ih =>
      obtain ⟨ih1, ih2⟩ := ih
      by_cases hc : c = '\n'
      · subst hc
        refine ⟨?_, by simp [splitNlR, ih2]⟩
        intro l hl
        simp only [splitNlR] at hl
        rcases List.mem_cons.mp hl with h | h
        · rw [h]; exact List.not_mem_nil '\n'
        · exact ih1 l h
      · cases h2 : (splitNlR cs).1 with
        | nil =>
            refine ⟨?_, ?_⟩
            · intro l hl
              simp [splitNlR, hc, h2] at hl
            · simp only [splitNlR, if_neg hc, h2]
              intro hm
              rcases List.mem_cons.mp hm with h | h
              · exact hc h.symm
              · exact ih2 h
        | cons l0 ls =>
            refine ⟨?_, by simp [splitNlR, hc, h2, ih2]⟩
            intro l hl
            simp only [splitNlR, if_neg hc, h2] at hl
            rcases List.mem_cons.mp hl with h | h
            · rw [h]
              intro hm
              rcases List.mem_cons.mp hm with h3 | h3
              · exact hc h3.symm
              · exact ih1 l0 (by rw [h2]; simp) h3
            · exact ih1 l (by rw [h2]; exact List.mem_cons_of_mem l0 h)

theorem processLine_text_line (acc : List Str) (l : Str) (h : PendingTextLine l) :
    processLine ⟨[], acc, [], false⟩ l = ⟨[], acc ++ [l], [], false⟩ := by
  obtain ⟨h1, h2, h3, h4, h5⟩ := h
  unfold processLine
  rw [h1]
  simp only [if_neg h2, h3]
  dsimp only
  simp only [Bool.false_eq_true, if_false, h4]

theorem foldl_text_lines : ∀ (T acc : List Str), (∀ l ∈ T, PendingTextLine l) →
    List.foldl processLine ⟨[], acc, [], false⟩ T = ⟨[], acc ++ T, [], false⟩ := by
  intro T
  induction T with
  | nil => intro acc _; simp
  | cons l T ih =>
      intro acc h
      rw [List.foldl_cons, processLine_text_line acc l (h l (by simp)),
        ih (acc ++ [l]) (fun x hx => h x (List.mem_cons_of_mem l hx))]
      simp

theorem processLine_renum_line (accI : List Str) (b : Bool) (k : Nat) (it : Str)
    (h : PendingItem it) :
    processLine ⟨[], [], accI, b⟩ (natToChars k ++ '.' :: ' ' :: it)
      = ⟨[], [], accI ++ [it], true⟩ := by
  obtain ⟨hne, hstr, hnl⟩ := h
  obtain ⟨hrfix, hlfix⟩ := pyStrip_fixed_parts it hstr
  have hline : natToChars k ++ '.' :: ' ' :: it = (natToChars k ++ ['.', ' ']) ++ it := by simp
  have hraw : pyRstrip (natToChars k ++ '.' :: ' ' :: it) = natToChars k ++ '.' :: ' ' :: it := by
    rw [hline]
    exact pyRstrip_append_fixed (natToChars k ++ ['.', ' ']) it hrfix hne
  have hparse : parseListItem (natToChars k ++ '.' :: ' ' :: it) = some it :=
    parse_renumber k it hlfix
  have hblank : pyStrip (natToChars k ++ '.' :: ' ' :: it) ≠ [] := by
    obtain ⟨hDne, hdig⟩ := natToChars_shape k
    cases hD : natToChars k with
    | nil => exact absurd hD hDne
    | cons d D =>
        rw [List.cons_append]
        exact pyStrip_cons_ne_nil d (D ++ '.' :: ' ' :: it)
          (digit_not_space d (hdig d (by rw [hD]; simp)))
  unfold processLine
  rw [hraw]
  simp only [if_neg hblank, hparse]
  rw [hstr]
  simp [flushText]

theorem foldl_renum_lines : ∀ (its : List Str) (k : Nat) (accI : List Str) (b : Bool),
    (∀ it ∈ its, PendingItem it) →
    List.foldl processLine ⟨[], [], accI, b⟩
        ((List.enumFrom k its).map (fun p => natToChars (p.1 + 1) ++ '.' :: ' ' :: p.2))
      = ⟨[], [], accI ++ its, if its = [] then b else true⟩ := by
  intro its
  induction its with
  | nil => intro k accI b _; simp
  | cons it its ih =>
      intro k accI b h
      rw [List.enumFrom_cons, List.map_cons, List.foldl_cons]
      rw [processLine_renum_line accI b (k + 1) it (h it (by simp))]
      rw [ih (k + 1) (accI ++ [it]) true (fun x hx => h x (List.mem_cons_of_mem it hx))]
      simp

theorem segInv_reconstruction (st : SegSt) (h : SegInv st) :
    List.foldl processLine ⟨[], [], [], false⟩ (pendingLines st) = stripSegs st := by
  obtain ⟨hiff, hexcl, htext, hitems⟩ := h
  unfold pendingLines stripSegs
  by_cases hin : st.items = []
  · have hib : st.inList = false := by
      cases hb2 : st.inList
      · rfl
      · exact absurd (hiff.mp hb2) (by simp [hin])
    rw [if_neg (by simp [hin]), List.nil_append, foldl_text_lines st.text [] htext,
      hin, hib]
    simp
  · have hib : st.inList = true := hiff.mpr hin
    have htxt : st.text = [] := hexcl hin
    rw [htxt, List.append_nil, if_pos ⟨by rw [hib], hin⟩]
    unfold renumber
    rw [List.enum_eq_enumFrom, foldl_renum_lines st.items 0 [] false hitems,
      if_neg hin, hib, List.nil_append]

theorem splitNlR_append (s t : Str) :
    splitNlR (s ++ t) = ((splitNlR s).1 ++ (splitNlR ((splitNlR s).2 ++ t)).1,
      (splitNlR ((splitNlR s).2 ++ t)).2) := by
  induction s with
  | nil => simp [splitNlR]
  | cons c cs ih =>
      by_cases hc : c = '\n'
      · subst hc
        rw [List.cons_append]
        simp only [splitNlR]
        rw [ih]
        simp
      · rw [List.cons_append]
        simp only [splitNlR, if_neg hc]
        rw [ih]
        cases h2 : (splitNlR cs).1 with
        | nil =>
            simp only [h2, List.nil_append]
            cases hX : (splitNlR ((splitNlR cs).2 ++ t)).1 with
            | nil => simp [splitNlR, hc, hX]
            | cons l ls => simp [splitNlR, hc, hX]
        | cons l ls =>
            simp [h2, List.cons_append]

theorem splitNlR_line_cons (l : Str) (hl : '\n' ∉ l) (rest : Str) :
    splitNlR (l ++ '\n' :: rest) = (l :: (splitNlR rest).1, (splitNlR rest).2) := by
  induction l with
  | nil => simp [splitNlR]
  | cons c l2 ih =>
      have hc : ¬ c = '\n' := fun he => hl (by simp [he])
      have ih2 := ih (fun hm => hl (List.mem_cons_of_mem c hm))
      rw [List.cons_append]
      simp only [splitNlR, if_neg hc]
      rw [ih2]

theorem joinNl_cons_ne (l : Str) (ls : List Str) (h : ls ≠ []) :
    joinNl (l :: ls) = l ++ '\n' :: joinNl ls := by
  cases ls with
  | nil => exact absurd rfl h
  | cons a as => rfl

theorem joinNl_append_ne : ∀ (A B : List Str), A ≠ [] → B ≠ [] →
    joinNl (A ++ B) = joinNl A ++ '\n' :: joinNl B := by
  intro A
  induction A with
  | nil => intro B h _; exact absurd rfl h
  | cons a A2 ih =>
      intro B hA hB
      cases A2 with
      | nil =>
          simp only [List.cons_append, List.nil_append]
          rw [joinNl_cons_ne a B hB]
          rfl
      | cons b bs =>
          rw [List.cons_append, joinNl_cons_ne a ((b :: bs) ++ B) (by simp),
            ih B (by simp) hB, joinNl_cons_ne a (b :: bs) (by simp)]
          simp

theorem splitNlR_joinNl_lines : ∀ (L : List Str), (∀ l ∈ L, '\n' ∉ l) → ∀ (t0 t : Str),
    splitNlR (joinNl (L ++ [t0]) ++ t)
      = (L ++ (splitNlR (t0 ++ t)).1, (splitNlR (t0 ++ t)).2) := by
  intro L
  induction L with
  | nil => intro _ t0 t; simp [joinNl]
  | cons l L2 ih =>
      intro hL t0 t
      have hcons : joinNl (l :: (L2 ++ [t0])) = l ++ '\n' :: joinNl (L2 ++ [t0]) :=
        joinNl_cons_ne l (L2 ++ [t0]) (by simp)
      rw [List.cons_append, hcons, List.append_assoc, List.cons_append,
        splitNlR_line_cons l (hL l (by simp)) (joinNl (L2 ++ [t0]) ++ t),
        ih (fun x hx => hL x (List.mem_cons_of_mem l hx)) t0 t]
      simp

theorem renumber_ne_nil (items : List Str) (h : items ≠ []) : renumber items ≠ [] := by
  unfold renumber
  cases items with
  | nil => exact absurd rfl h
  | cons a as => simp [List.enum_eq_enumFrom, List.enumFrom_cons]

theorem pendingParts_eq (st : SegSt) (x : Str) :
    joinNl ((if st.inList ∧ st.items ≠ [] then [joinNl (renumber st.items)] else [])
      ++ (if st.text ≠ [] then [joinNl st.text] else []) ++ [x])
      = joinNl (pendingLines st ++ [x]) := by
  unfold pendingLines
  by_cases hP : st.inList ∧ st.items ≠ []
  · rw [if_pos hP, if_pos hP]
    have hR : renumber st.items ≠ [] := renumber_ne_nil st.items hP.2
    by_cases hQ : st.text ≠ []
    · rw [if_pos hQ]
      conv_rhs => rw [List.append_assoc,
        joinNl_append_ne (renumber st.items) (st.text ++ [x]) hR (by simp),
        joinNl_append_ne st.text [x] hQ (by simp)]
      simp only [List.cons_append, List.nil_append]
      rfl
    · have hT : st.text = [] := not_not.mp hQ
      rw [if_neg hQ, hT]
      simp only [List.append_nil]
      conv_rhs => rw [joinNl_append_ne (renumber st.items) [x] hR (by simp)]
      simp only [List.cons_append, List.nil_append]
      rfl
  · rw [if_neg hP, if_neg hP]
    simp only [List.nil_append]
    by_cases hQ : st.text ≠ []
    · rw [if_pos hQ]
      conv_rhs => rw [joinNl_append_ne st.text [x] hQ (by simp)]
      simp only [List.cons_append, List.nil_append]
      rfl
    · have hT : st.text = [] := not_not.mp hQ
      rw [if_neg hQ, hT]

theorem extract_no_complete (x : Str) (h : (splitNlR x).1 = []) :
    extractSpeakSegments x = ([], x) := by
  by_cases hx : x = []
  · subst hx; rfl
  · simp only [extractSpeakSegments, if_neg hx]
    rw [if_pos h]

theorem extract_main (x : Str) (hx : (splitNlR x).1 ≠ []) :
    extractSpeakSegments x
      = ((List.foldl processLine ⟨[], [], [], false⟩ (splitNlR x).1).segs,
         joinNl (pendingLines (List.foldl processLine ⟨[], [], [], false⟩ (splitNlR x).1)
           ++ [(splitNlR x).2])) := by
  have hxne : x ≠ [] := by
    intro h0
    rw [h0] at hx
    exact hx rfl
  simp only [extractSpeakSegments, if_neg hxne, if_neg hx]
  rw [pendingParts_eq]

theorem extract_comp (b t : Str) :
    extractSpeakSegments (b ++ t)
      = ((extractSpeakSegments b).1
          ++ (extractSpeakSegments ((extractSpeakSegments b).2 ++ t)).1,
         (extractSpeakSegments ((extractSpeakSegments b).2 ++ t)).2) := by
  cases hL : (splitNlR b).1 with
  | nil =>
      have he := extract_no_complete b hL
      rw [he]
      simp
  | cons l0 ls0 =>
      have hLne : (splitNlR b).1 ≠ [] := by rw [hL]; simp
      have hInv : SegInv (List.foldl processLine ⟨[], [], [], false⟩ (splitNlR b).1) :=
        segInv_foldl (splitNlR b).1 ⟨[], [], [], false⟩ segInv_init
          (splitNlR_no_newline_parts b).1
      have hEb := extract_main b hLne
      have hsApp := splitNlR_append b t
      have hfst : (splitNlR (b ++ t)).1
          = (splitNlR b).1 ++ (splitNlR ((splitNlR b).2 ++ t)).1 := by rw [hsApp]
      have hsnd : (splitNlR (b ++ t)).2 = (splitNlR ((splitNlR b).2 ++ t)).2 := by rw [hsApp]
      have hLne2 : (splitNlR (b ++ t)).1 ≠ [] := by
        rw [hfst, hL]; simp
      have hLHS := extract_main (b ++ t) hLne2
      rw [hfst, hsnd, List.foldl_append] at hLHS
      have hrem : (extractSpeakSegments b).2
          = joinNl (pendingLines (List.foldl processLine ⟨[], [], [], false⟩ (splitNlR b).1)
              ++ [(splitNlR b).2]) := by rw [hEb]
      have hsplit2 : splitNlR ((extractSpeakSegments b).2 ++ t)
          = (pendingLines (List.foldl processLine ⟨[], [], [], false⟩ (splitNlR b).1)
              ++ (splitNlR ((splitNlR b).2 ++ t)).1,
             (splitNlR ((splitNlR b).2 ++ t)).2) := by
        rw [hrem, splitNlR_joinNl_lines (pendingLines _) (pendingLines_no_newline _ hInv)
          ((splitNlR b).2) t]
      by_cases hpM : pendingLines (List.foldl processLine ⟨[], [], [], false⟩ (splitNlR b).1)
          ++ (splitNlR ((splitNlR b).2 ++ t)).1 = []
      · obtain ⟨hpend, hMnil⟩ := List.append_eq_nil.mp hpM
        have hre : extractSpeakSegments ((extractSpeakSegments b).2 ++ t)
            = ([], (extractSpeakSegments b).2 ++ t) :=
          extract_no_complete _ (by rw [hsplit2]; exact hpM)
        have hu2 : (splitNlR ((splitNlR b).2 ++ t)).2 = (splitNlR b).2 ++ t :=
          splitNlR_fst_nil _ hMnil
        rw [hLHS, hre, hEb]
        dsimp only
        rw [hMnil, List.foldl_nil, hpend, hu2]
        simp [joinNl]
      · have hre := extract_main ((extractSpeakSegments b).2 ++ t)
          (by rw [hsplit2]; exact hpM)
        rw [hsplit2] at hre
        dsimp only at hre
        rw [List.foldl_append, segInv_reconstruction _ hInv] at hre
        rw [hLHS, hre, hEb]
        dsimp only
        rw [foldl_shift ((splitNlR ((splitNlR b).2 ++ t)).1)]
        rw [segs_update, pendingLines_update]

theorem feedChunks_eq : ∀ (cs : List Str) (buffer : Str), cs ≠ [] →
    feedChunks buffer cs = extractSpeakSegments (buffer ++ joinAll cs) := by
  intro cs
  induction cs with
  | nil => intro buffer h; exact absurd rfl h
  | cons c cs ih =>
      intro buffer _
      cases cs with
      | nil => simp [feedChunks, joinAll]
      | cons c2 cs2 =>
          have hstep : feedChunks buffer (c :: c2 :: cs2)
              = ((extractSpeakSegments (buffer ++ c)).1
                  ++ (feedChunks (extractSpeakSegments (buffer ++ c)).2 (c2 :: cs2)).1,
                 (feedChunks (extractSpeakSegments (buffer ++ c)).2 (c2 :: cs2)).2) := rfl
          rw [hstep, ih (extractSpeakSegments (buffer ++ c)).2 (by simp)]
          have hJ : buffer ++ joinAll (c :: c2 :: cs2)
              = (buffer ++ c) ++ joinAll (c2 :: cs2) := by
            simp [joinAll]
          rw [hJ, extract_comp (buffer ++ c) (joinAll (c2 :: cs2))]

theorem transcript_eq (cs : List Str) :
    transcript cs = (extractSpeakSegments (joinAll cs)).1
      ++ endFlush (extractSpeakSegments (joinAll cs)).2 := by
  cases cs with
  | nil => rfl
  | cons c cs2 =>
      unfold transcript
      rw [feedChunks_eq (c :: cs2) [] (by simp), List.nil_append]

/-- Claim C6: feeding the same final text to the speech segmenter under any
chunking — threading the returned remainder between calls and force-flushing
the residue at end of turn — yields the same final sequence of segment texts:
any two chunkings with equal concatenation produce equal transcripts. -/
theorem speechChunkInvariance (cs ds : List Str) (h : joinAll cs = joinAll ds) :
    transcript cs = transcript ds := by
  rw [transcript_eq cs, transcript_eq ds, h]

theorem speechChunkInvariance_witness :
    joinAll (("Hi there.\nOk").toList.map (fun c => [c])) = joinAll [("Hi there.\nOk").toList]
      ∧ transcript (("Hi there.\nOk").toList.map (fun c => [c]))
        = transcript [("Hi there.\nOk").toList] :=
  ⟨by decide, speechChunkInvariance _ _ (by decide)⟩

end VoiceAssistant
